import Mathlib

/-!
Verification of the divergence / multi-rooting-consensus engine of
`phylorank/outliers.py` (class `Outliers`).

Conventions of the embedding:
* Python floats are embedded as `ℚ` (exact arithmetic; "to floating-point
  tolerance" becomes exact equality).
* `numpy.median` of an empty sequence yields `nan`; the embedding renders
  that missing value as `none : Option ℚ`.
* Fallible code (calls to `sys.exit`, attribute errors on `None`) is
  embedded with `Except`.
* Functions of the repository that are imported by `outliers.py` from
  modules outside `src/` (`phylorank.rel_dist.RelativeDistance`,
  `phylorank.newick.parse_label`, `phylorank.common.get_phyla_lineages`)
  and the dendropy tree primitives are modelled from the spec; each such
  definition carries a doc comment saying so.
-/
namespace AutoRank

/-! ### Outlier classification bands (`_median_outlier_file`,
`_median_summary_outlier_file`) -/
/-- The classification band chain of `outliers.py` (lines 371-379 and
637-645): `classification = "OK"`, then
`if delta < -0.2 ... elif delta < -0.1 ... elif delta > 0.2 ...
elif delta > 0.1 ...`, rendered as a right-nested conditional. -/
def classifyDelta (delta : ℚ) : String :=
  if delta < -2/10 then "very overclassified"
  else if delta < -1/10 then "overclassified"
  else if delta > 2/10 then "very underclassified"
  else if delta > 1/10 then "underclassified"
  else "OK"

/-! ### `numpy.median` -/
/-- Median of a non-empty sorted sample, as `numpy.median` computes it:
midpoint element for odd length, mean of the two middle elements for even
length. -/
def medianOfSorted (s : List ℚ) : ℚ :=
  if s.length % 2 = 1 then s.getD (s.length / 2) 0
  else (s.getD (s.length / 2 - 1) 0 + s.getD (s.length / 2) 0) / 2

/-- `numpy.median`.  On an empty sample numpy returns `nan`, which the
embedding renders as `none`. -/
def npMedian (l : List ℚ) : Option ℚ :=
  if l.isEmpty then none
  else some (medianOfSorted (l.insertionSort (· ≤ ·)))

/-! ### Tree model

Modelled from the spec (§3, §4.1): the source delegates the tree model to
dendropy (`Tree`, `Node`, `Edge`), which is outside the repository.  A node
has an optional stable integer id (assigned by `median_rd_over_phyla`
before any rerooting; nodes created by rerooting carry none), an optional
raw taxon label on internal nodes, an edge length to its parent
(meaningless on the root) and an ordered list of children. -/
inductive PTree where
  | leaf (id : Option Nat) (name : String) (len : ℚ)
  | inner (id : Option Nat) (label : Option String) (len : ℚ) (children : List PTree)
deriving Repr

namespace PTree

mutual
/-- Labels of the leaves of the subtree, left to right (dendropy
`leaf_node_iter` / `leaf_iter`). -/
def leafNames : PTree → List String
  | .leaf _ n _ => [n]
  | .inner _ _ _ cs => leafNamesList cs

/-- Leaf labels of a forest, left to right. -/
def leafNamesList : List PTree → List String
  | [] => []
  | c :: cs => leafNames c ++ leafNamesList cs
end

/-- `sum([1 for _ in tree.leaf_node_iter()])`. -/
def leafCount (t : PTree) : Nat := t.leafNames.length

/-- Edge length of the node (to its parent). -/
def edgeLen : PTree → ℚ
  | .leaf _ _ l => l
  | .inner _ _ l _ => l

/-- Replace the edge length of the node. -/
def setLen : PTree → ℚ → PTree
  | .leaf i n _, l => .leaf i n l
  | .inner i nm _ cs, l => .inner i nm l cs

/-- Node at the end of a path of child indices from the root. -/
def subtreeAt : PTree → List Nat → Option PTree
  | t, [] => some t
  | .leaf _ _ _, _ :: _ => none
  | .inner _ _ _ cs, j :: rest =>
    match cs[j]? with
    | none => none
    | some c => subtreeAt c rest

mutual
/-- Path of child indices from the root down to the (first) leaf with the
given taxon label. -/
def pathToLeaf (x : String) : PTree → Option (List Nat)
  | .leaf _ n _ => if n = x then some [] else none
  | .inner _ _ _ cs => (pathToLeafList x cs).map (fun ip => ip.1 :: ip.2)

/-- Search a forest for a leaf label: the index of the first child whose
leaves contain it, with the path inside that child. -/
def pathToLeafList (x : String) : List PTree → Option (Nat × List Nat)
  | [] => none
  | c :: cs =>
    if x ∈ leafNames c then (pathToLeaf x c).map (fun p => (0, p))
    else (pathToLeafList x cs).map (fun ip => (ip.1 + 1, ip.2))
end

mutual
/-- Modelled from the spec (§4.1, glossary): dendropy `Tree.mrca(taxa)` —
the shallowest node whose descendant leaf set contains every name in `S`,
as a path of child indices: descend into a child as long as one covers all
of `S`. -/
def mrcaPath (S : List String) : PTree → List Nat
  | .leaf _ _ _ => []
  | .inner _ _ _ cs =>
    match mrcaPathList S cs with
    | none => []
    | some ip => ip.1 :: ip.2

/-- Index of the first child of a forest covering all of `S`, with the
MRCA path inside it. -/
def mrcaPathList (S : List String) : List PTree → Option (Nat × List Nat)
  | [] => none
  | c :: cs =>
    if S.all (fun s => decide (s ∈ leafNames c)) then some (0, mrcaPath S c)
    else (mrcaPathList S cs).map (fun ip => (ip.1 + 1, ip.2))
end

/-- Ancestor-chain reorientation below the root for
`reroot_at_edge`: walking down `path` towards the target node, each node on
the path is re-hung below its former child with the edge between them kept,
with `acc` the already reoriented part of the tree above. -/
def rerootGo : PTree → List Nat → PTree → Option PTree
  | .leaf _ _ _, _, _ => none
  | .inner _ _ _ _, [], _ => none
  | .inner i nm _ cs, j :: rest, acc =>
    match h : cs[j]? with
    | none => none
    | some c =>
      let others := cs.eraseIdx j
      let clen := edgeLen c
      if rest.isEmpty then
        some (.inner none none 0
          [c.setLen (clen / 2), .inner i nm (clen / 2) (others ++ [acc])])
      else rerootGo c rest (.inner i nm clen (others ++ [acc]))

/-- Modelled from the spec (§4.1): dendropy
`reroot_at_edge(edge, length1, length2)` as used by `root_with_outgroup`
(always splitting the edge length evenly).  A new root is inserted on the
edge above the node at `path`; the ancestor chain is reoriented; the
unifurcation this leaves at the former root is suppressed (its remaining
child absorbs the two edge lengths), as dendropy's rerooting does. -/
def rerootAtEdgePath : PTree → List Nat → Option PTree
  | .leaf _ _ _, _ => none
  | .inner _ _ _ _, [] => none
  | .inner i nm _ cs, j :: rest =>
    match cs[j]? with
    | none => none
    | some c =>
      let others := cs.eraseIdx j
      let clen := edgeLen c
      let accOf : ℚ → PTree := fun hl =>
        match others with
        | [o] => o.setLen (o.edgeLen + hl)
        | _ => .inner i nm hl others
      if rest.isEmpty then
        some (.inner none none 0 [c.setLen (clen / 2), accOf (clen / 2)])
      else rerootGo c rest (accOf clen)

end PTree

open PTree

/-! ### Outgroup Rerooter (`root_with_outgroup`) -/
/-- Failure outcomes of the per-phylum pipeline.  `emptyOutgroup` models
the `sys.exit(0)` at line 113; `retryExhausted` models the
`while True` loop not having exited within the given fuel;
`rerootFailed` models structural failures (`random.sample` on an empty
ingroup, a missing edge on the reroot path); `noIngroupSubtree` models the
`AttributeError` raised at line 780 when `ingroup_subtree` is `None`. -/
inductive PhyErr where
  | emptyOutgroup
  | retryExhausted
  | rerootFailed
  | noIngroupSubtree
deriving Repr, DecidableEq

/-- Lines 95-98: the outgroup is the set of genome ids whose taxonomy
string contains the requested outgroup taxon. -/
def outgroupOf (taxonomy : List (String × List String))
    (outgroupTaxa : String) : List String :=
  (taxonomy.filter (fun gt => decide (outgroupTaxa ∈ gt.2))).map (fun gt => gt.1)

/-- Lines 124-133: the randomized rerooting retry loop.  `picks` is the
injected random source (spec §9), selecting an index into the fixed
ingroup leaf list; `total` is the leaf count computed before the loop
(line 123).  Fuel models the unbounded `while True`: running out of fuel
is `retryExhausted`. -/
def rootLoop (ingroupNames outgroupNames : List String) (total : Nat)
    (picks : Nat → Nat) :
    Nat → Nat → PTree → Except PhyErr (PTree × List Nat)
  | 0, _, _ => .error .retryExhausted
  | fuel + 1, k, t =>
    match ingroupNames[picks k % ingroupNames.length]? with
    | none => .error .rerootFailed
    | some x =>
      match t.pathToLeaf x with
      | none => .error .rerootFailed
      | some p =>
        match t.rerootAtEdgePath p with
        | none => .error .rerootFailed
        | some t' =>
          if ((subtreeAt t' (mrcaPath outgroupNames t')).getD t').leafCount ≠ total
          then .ok (t', mrcaPath outgroupNames t')
          else rootLoop ingroupNames outgroupNames total picks fuel (k + 1) t'

/-- `root_with_outgroup` (lines 75-153).  The deep copy of line 93 is
implicit in the purely functional embedding (see the store-level variant
below for the frame property).  The `mrca.edge_length is None` test of
line 145 holds exactly when the MRCA is the root, i.e. when its path is
empty. -/
def rootWithOutgroup (inputTree : PTree)
    (taxonomy : List (String × List String)) (outgroupTaxa : String)
    (picks : Nat → Nat) (fuel : Nat) : Except PhyErr PTree :=
  if (inputTree.leafNames.filter
      (fun n => decide (n ∈ outgroupOf taxonomy outgroupTaxa))).length = 0
  then .error .emptyOutgroup
  else
    match rootLoop
        (inputTree.leafNames.filter
          (fun n => decide (n ∉ outgroupOf taxonomy outgroupTaxa)))
        (inputTree.leafNames.filter
          (fun n => decide (n ∈ outgroupOf taxonomy outgroupTaxa)))
        inputTree.leafCount picks fuel 0 inputTree with
    | .error e => .error e
    | .ok (t', mp) =>
      if mp.isEmpty then .ok t'
      else
        match t'.rerootAtEdgePath mp with
        | none => .error .rerootFailed
        | some t'' => .ok t''

/-! ### Store-level deep-copy semantics of `root_with_outgroup` (line 93)

The source mutates `new_tree = input_tree.clone()` in place through
successive `reroot_at_edge` calls.  To state the frame property (the
original tree object is untouched) the mutable heap of tree objects is
made explicit as a list of trees indexed by reference. -/
/-- The retry loop, mutating the cloned tree in the store at `ref` on
every trial rerooting, as the source's in-place `reroot_at_edge` does. -/
def rootLoopStore (ing og : List String) (total : Nat) (picks : Nat → Nat)
    (ref : Nat) :
    Nat → Nat → List PTree → Except PhyErr (List PTree × List Nat)
  | 0, _, _ => .error .retryExhausted
  | fuel + 1, k, store =>
    match store[ref]? with
    | none => .error .rerootFailed
    | some t =>
      match ing[picks k % ing.length]? with
      | none => .error .rerootFailed
      | some x =>
        match t.pathToLeaf x with
        | none => .error .rerootFailed
        | some p =>
          match t.rerootAtEdgePath p with
          | none => .error .rerootFailed
          | some t' =>
            if ((subtreeAt t' (mrcaPath og t')).getD t').leafCount ≠ total
            then .ok (store.set ref t', mrcaPath og t')
            else rootLoopStore ing og total picks ref fuel (k + 1) (store.set ref t')

/-- Store-level `root_with_outgroup`: clones the tree at `ref` to a fresh
reference (line 93) and performs every mutation on the clone.  Returns the
updated store and the clone's reference. -/
def rootWithOutgroupStore (store : List PTree) (ref : Nat)
    (taxonomy : List (String × List String)) (outgroupTaxa : String)
    (picks : Nat → Nat) (fuel : Nat) :
    Except PhyErr (List PTree × Nat) :=
  match store[ref]? with
  | none => .error .rerootFailed
  | some inputTree =>
    if (inputTree.leafNames.filter
        (fun n => decide (n ∈ outgroupOf taxonomy outgroupTaxa))).length = 0
    then .error .emptyOutgroup
    else
      match rootLoopStore
          (inputTree.leafNames.filter
            (fun n => decide (n ∉ outgroupOf taxonomy outgroupTaxa)))
          (inputTree.leafNames.filter
            (fun n => decide (n ∈ outgroupOf taxonomy outgroupTaxa)))
          inputTree.leafCount picks store.length fuel 0 (store ++ [inputTree]) with
      | .error e => .error e
      | .ok (store2, mp) =>
        match store2[store.length]? with
        | none => .error .rerootFailed
        | some t' =>
          if mp.isEmpty then .ok (store2, store.length)
          else
            match t'.rerootAtEdgePath mp with
            | none => .error .rerootFailed
            | some t'' => .ok (store2.set store.length t'', store.length)

/-! ### Divergence Calculator (`RelativeDistance`, spec §4.3) -/
/-- A tree whose every node carries a relative evolutionary divergence
value (`rel_dist`), the state after `decorate_rel_dist`. -/
inductive DTree where
  | leaf (id : Option Nat) (name : String) (len : ℚ) (rd : ℚ)
  | inner (id : Option Nat) (label : Option String) (len : ℚ) (rd : ℚ)
      (children : List DTree)
deriving Repr

namespace DTree

/-- `rel_dist` of the node itself. -/
def relDist : DTree → ℚ
  | .leaf _ _ _ rd => rd
  | .inner _ _ _ rd _ => rd

/-- Raw label of the node (`None` on leaves, whose taxon is held
separately). -/
def labelOf : DTree → Option String
  | .leaf _ _ _ _ => none
  | .inner _ lbl _ _ _ => lbl

/-- `seed_node.child_node_iter()`. -/
def rootChildren : DTree → List DTree
  | .leaf _ _ _ _ => []
  | .inner _ _ _ _ cs => cs

mutual
/-- Pre-order traversal collecting `(n.id, n.rel_dist)` for every node of
the subtree (`preorder_iter`). -/
def nodeObsList : DTree → List (Option Nat × ℚ)
  | .leaf i _ _ rd => [(i, rd)]
  | .inner i _ _ rd cs => (i, rd) :: nodeObsListL cs

/-- Pre-order `(id, rel_dist)` pairs of a forest. -/
def nodeObsListL : List DTree → List (Option Nat × ℚ)
  | [] => []
  | c :: cs => nodeObsList c ++ nodeObsListL cs
end

end DTree

mutual
/-- Sum, over the leaves of the subtree, of the branch length from the
subtree root down to the leaf. -/
def sumLeafDists : PTree → ℚ
  | .leaf _ _ _ => 0
  | .inner _ _ _ cs => sumLeafDistsL cs

/-- Sum of the root-to-leaf distances contributed by a forest of child
subtrees (each leaf's distance includes the child's own edge). -/
def sumLeafDistsL : List PTree → ℚ
  | [] => 0
  | c :: cs => (sumLeafDists c + c.edgeLen * (c.leafCount : ℚ)) + sumLeafDistsL cs
end

/-- Modelled from the spec (§4.3): `average_leaf_distance(n)` — the mean,
over all leaves in the subtree, of the branch length from the node to the
leaf. -/
def avgLeafDist (t : PTree) : ℚ := sumLeafDists t / (t.leafCount : ℚ)

mutual
/-- Modelled from the spec (§4.3):
`RED(n) = RED(parent) + (edge/(edge + avg_leaf_dist)) * (1 - RED(parent))`
in pre-order, implemented in `phylorank.rel_dist.RelativeDistance`
(outside `src/`). -/
def decorateFrom (parentRd : ℚ) : PTree → DTree
  | .leaf i n l =>
      .leaf i n l (parentRd + (l / (l + avgLeafDist (.leaf i n l))) * (1 - parentRd))
  | .inner i nm l cs =>
      .inner i nm l
        (parentRd + (l / (l + avgLeafDist (.inner i nm l cs))) * (1 - parentRd))
        (decorateFromL
          (parentRd + (l / (l + avgLeafDist (.inner i nm l cs))) * (1 - parentRd))
          cs)

/-- `decorateFrom` over a forest of children. -/
def decorateFromL (parentRd : ℚ) : List PTree → List DTree
  | [] => []
  | c :: cs => decorateFrom parentRd c :: decorateFromL parentRd cs
end

/-- Modelled from the spec (§4.3): `decorate_rel_dist` — the root's RED is
0, each other node gets the recursive RED value. -/
def decorate : PTree → DTree
  | .leaf i n l => .leaf i n l 0
  | .inner i nm l cs => .inner i nm l 0 (decorateFromL 0 cs)

/-! ### The rescaling step of `rd_fixed_root` (lines 681-683) -/
mutual
/-- Lines 681-683: each non-root node's edge length is rewritten to
`n.rel_dist - n.parent_node.rel_dist`. -/
def rescaleFrom (parentRd : ℚ) : DTree → DTree
  | .leaf i n _ rd => .leaf i n (rd - parentRd) rd
  | .inner i nm _ rd cs => .inner i nm (rd - parentRd) rd (rescaleFromL rd cs)

/-- `rescaleFrom` over a forest of children. -/
def rescaleFromL (parentRd : ℚ) : List DTree → List DTree
  | [] => []
  | c :: cs => rescaleFrom parentRd c :: rescaleFromL parentRd cs
end

/-- The whole rescaling pass: the root keeps its edge length (the loop
skips the seed node), every other node is rescaled. -/
def rescaleTree : DTree → DTree
  | .leaf i n l rd => .leaf i n l rd
  | .inner i nm l rd cs => .inner i nm l rd (rescaleFromL rd cs)

mutual
/-- For every leaf of the subtree, the pair
(`acc` + sum of edge lengths from the subtree root to that leaf,
leaf's `rel_dist`). -/
def leafPathSums (acc : ℚ) : DTree → List (ℚ × ℚ)
  | .leaf _ _ l rd => [(acc + l, rd)]
  | .inner _ _ l _ cs => leafPathSumsL (acc + l) cs

/-- `leafPathSums` over a forest of children. -/
def leafPathSumsL (acc : ℚ) : List DTree → List (ℚ × ℚ)
  | [] => []
  | c :: cs => leafPathSums acc c ++ leafPathSumsL acc cs
end

/-- Root-to-leaf path sums of edge lengths, paired with each leaf's
`rel_dist` (the root's own edge is not part of any path). -/
def rootPathSums : DTree → List (ℚ × ℚ)
  | .leaf _ _ _ rd => [(0, rd)]
  | .inner _ _ _ _ cs => leafPathSumsL 0 cs

/-! ### Label parsing and taxonomy helpers -/
/-- Python's substring test `needle in hay`. -/
def strContains (hay needle : String) : Bool :=
  decide (List.IsInfix needle.toList hay.toList)

/-- Split a character list on a separator character. -/
def splitOnCharAux (sep : Char) : List Char → List Char → List (List Char)
  | [], cur => [cur.reverse]
  | c :: cs, cur =>
    if c = sep then cur.reverse :: splitOnCharAux sep cs []
    else splitOnCharAux sep cs (c :: cur)

/-- `s.split(sep)` on strings. -/
def strSplitOn (sep : Char) (s : String) : List String :=
  (splitOnCharAux sep s.toList []).map String.mk

/-- Whether the string is a bare natural number literal. -/
def isNatStr (s : String) : Bool :=
  !s.toList.isEmpty && s.toList.all Char.isDigit

/-- Modelled from the spec (§9): `parse_label` from `phylorank.newick`
(outside `src/`) — splits a raw internal-node label into
(support value, clade name, auxiliary info); an absent or empty label
fails closed to no taxon.  A `support:taxon` label carries both pieces, a
bare numeric label is a support value, any other bare label is a taxon
name. -/
def parseLabel (label : Option String) :
    Option String × Option String × Option String :=
  match label with
  | none => (none, none, none)
  | some s =>
    if s = "" then (none, none, none)
    else
      match strSplitOn ':' s with
      | [a, b] => (some a, if b = "" then none else some b, none)
      | _ => if isNatStr s then (some s, none, none) else (none, some s, none)

/-- `Taxonomy.rank_prefixes` of biolib, as the spec's rank order
domain → phylum → class → order → family → genus → species. -/
def rankPrefixes : List String :=
  ["d__", "p__", "c__", "o__", "f__", "g__", "s__"]

/-- String prefix test over the character lists. -/
def strIsPrefix (q s : String) : Bool := q.toList.isPrefixOf s.toList

/-- Rank index of a rank-prefixed taxon name, if any. -/
def rankOfTaxon (t : String) : Option Nat :=
  rankPrefixes.findIdx? (fun q => strIsPrefix q t)

mutual
/-- Modelled from the spec (§6): the taxa parsed from the internal-node
labels of the tree, in pre-order. -/
def treeTaxa : PTree → List String
  | .leaf _ _ _ => []
  | .inner _ lbl _ cs => (parseLabel lbl).2.1.toList ++ treeTaxaL cs

/-- `treeTaxa` over a forest. -/
def treeTaxaL : List PTree → List String
  | [] => []
  | c :: cs => treeTaxa c ++ treeTaxaL cs
end

/-- Modelled from the spec (§6): the candidate phylum lineages of the
tree. -/
def getPhylaLineages (t : PTree) : List String :=
  ((treeTaxa t).filter (fun s => strIsPrefix "p__" s)).dedup

/-- Modelled from the spec (§4.4): `Taxonomy().children(p, taxonomy)` of
biolib — every taxon below `p` in some lineage that contains `p`. -/
def taxonomyChildren (p : String)
    (taxonomy : List (String × List String)) : List String :=
  taxonomy.flatMap
    (fun gt => if p ∈ gt.2 then (gt.2.dropWhile (fun x => decide (x ≠ p))).drop 1
               else [])

/-- Remove every occurrence of a pattern from a character list (fuelled
scan; the fuel is the list length, enough for a full pass). -/
def removeAllAux (pat : List Char) : Nat → List Char → List Char
  | 0, l => l
  | _ + 1, [] => []
  | fuel + 1, c :: cs =>
    if pat.isPrefixOf (c :: cs) then removeAllAux pat fuel ((c :: cs).drop pat.length)
    else c :: removeAllAux pat fuel cs

/-- Line 748: the dictionary key for a phylum,
`p.replace('p__', '').replace(' ', '_').lower()` (the `' ' → '_'`
replacement is a single-character map). -/
def phylumKey (p : String) : String :=
  String.mk
    (((removeAllAux "p__".toList (p.toList.length + 1) p.toList).map
        (fun c => if c = ' ' then '_' else c)).map Char.toLower)

/-! ### Named-clade RED table (`rel_dist_to_named_clades`) -/
/-- A `RankDistributionTable`: `d[rank_index][taxon] -> RED`, flattened to
an association list keyed by (rank, taxon). -/
abbrev RankTable := List ((Nat × String) × ℚ)

/-- Dictionary insertion: replace the value at an existing key, append a
fresh key. -/
def dictInsert (m : RankTable) (k : Nat × String) (v : ℚ) : RankTable :=
  if m.any (fun kv => decide (kv.1 = k)) then
    m.map (fun kv => if kv.1 = k then (k, v) else kv)
  else m ++ [(k, v)]

mutual
/-- Modelled from the spec (§4.3): the named-clade pairs of a decorated
tree — each internal node whose parsed taxon label is present,
non-compound (no `;`), and rank-prefixed contributes its RED under
(rank index, taxon). -/
def namedCladePairs : DTree → List ((Nat × String) × ℚ)
  | .leaf _ _ _ _ => []
  | .inner _ lbl _ rd cs =>
      (match (parseLabel lbl).2.1 with
        | none => []
        | some tn =>
          if strContains tn ";" then []
          else match rankOfTaxon tn with
            | none => []
            | some r => [((r, tn), rd)]) ++ namedCladePairsL cs

/-- `namedCladePairs` over a forest. -/
def namedCladePairsL : List DTree → List ((Nat × String) × ℚ)
  | [] => []
  | c :: cs => namedCladePairs c ++ namedCladePairsL cs
end

/-- Modelled from the spec (§4.3): `rel_dist_to_named_clades`, as a
dictionary built from the pre-order named-clade pairs. -/
def relDistToNamedClades (d : DTree) : RankTable :=
  (namedCladePairs d).foldl (fun m p => dictInsert m p.1 p.2) []

/-- Line 755: `rel_dists.pop(0, None)` — drop the domain rank. -/
def popRank0 (tbl : RankTable) : RankTable :=
  tbl.filter (fun kv => decide (kv.1.1 ≠ 0))

/-- Lines 758-764: drop the outgroup phylum and all taxa below it. -/
def popTaxa (tbl : RankTable) (ts : List String) : RankTable :=
  tbl.filter (fun kv => decide (kv.1.2 ∉ ts))

/-! ### Per-phylum pipeline and aggregation (`median_rd_over_phyla`) -/
/-- Line 775: the test
`if not taxon_name or p not in taxon_name` selecting the ingroup child. -/
def ingroupPred (p : String) (c : DTree) : Bool :=
  match (parseLabel c.labelOf).2.1 with
  | none => true
  | some tn => !(strContains tn p)

/-- Lines 771-777: the first root child whose parsed taxon label is
absent or does not contain the outgroup phylum name. -/
def findIngroupSubtree (cur : DTree) (p : String) : Option DTree :=
  cur.rootChildren.find? (ingroupPred p)

/-- The per-rooting result: the cleaned named-clade table and the
pre-order `(id, rel_dist)` observations of the ingroup subtree. -/
structure PerPhylumResult where
  table : RankTable
  nodeObs : List (Option Nat × ℚ)
deriving Repr, Inhabited

/-- Lines 747-781: the body of the per-phylum loop — root on the phylum,
decorate with RED, extract and clean the named-clade table, walk the
ingroup subtree.  A missing ingroup subtree is the `AttributeError` of
line 780. -/
def perPhylum (tree : PTree) (taxonomy : List (String × List String))
    (picks : String → Nat → Nat) (fuel : Nat) (p : String) :
    Except PhyErr PerPhylumResult :=
  match rootWithOutgroup tree taxonomy p (picks p) fuel with
  | .error e => .error e
  | .ok curTree =>
    match findIngroupSubtree (decorate curTree) p with
    | none => .error .noIngroupSubtree
    | some ing =>
      .ok ⟨popTaxa (popRank0 (relDistToNamedClades (decorate curTree)))
            (p :: taxonomyChildren p taxonomy),
          ing.nodeObsList⟩

/-- The `for p in phyla` loop, stopping at the first failing phylum (any
`sys.exit`/exception aborts the whole run). -/
def runPhyla (f : String → Except PhyErr PerPhylumResult) :
    List String → Except PhyErr (List (String × PerPhylumResult))
  | [] => .ok []
  | p :: ps =>
    match f p with
    | .error e => .error e
    | .ok r =>
      match runPhyla f ps with
      | .error e => .error e
      | .ok rs => .ok ((p, r) :: rs)

/-! ### Accumulators (`defaultdict(list)` appends) -/
/-- `d[k].append(v)` on a `defaultdict(list)`. -/
def appendAt {K : Type} [DecidableEq K] (m : K → List ℚ) (k : K) (v : ℚ) :
    K → List ℚ :=
  fun j => if j = k then m j ++ [v] else m j

/-- The keyed observations of successive rootings appended in order
(`rel_node_dists[n.id].append(n.rel_dist)` at line 781,
`medians_for_taxa[rank][taxon].append(dist)` at line 409). -/
def accPairs {K : Type} [DecidableEq K] (pss : List (List (K × ℚ))) :
    K → List ℚ :=
  pss.foldl (fun m ps => ps.foldl (fun m kv => appendAt m kv.1 kv.2) m)
    (fun _ => [])

/-- Key the node observations by stable id; nodes created by rerooting
(no id) do not occur inside the ingroup subtree and carry no key. -/
def obsKeyed (obs : List (Option Nat × ℚ)) : List (Nat × ℚ) :=
  obs.filterMap (fun ov => ov.1.map (fun i => (i, ov.2)))

/-- Line 745 and 781: the per-node accumulator over the processed
phyla. -/
def nodeAcc (rs : List (String × PerPhylumResult)) : Nat → List ℚ :=
  accPairs (rs.map (fun pr => obsKeyed pr.2.nodeObs))

/-- Lines 405-411 (`taxa_median_rd`): the per-(rank, taxon) accumulator
over the per-phylum tables. -/
def taxaAcc (prd : List (String × RankTable)) : (Nat × String) → List ℚ :=
  accPairs (prd.map (fun pr => pr.2))

/-- Line 1018: a node's consensus RED,
`np_median(rel_node_dists[n.id])`. -/
def consensusRed (acc : Nat → List ℚ) (i : Nat) : Option ℚ := npMedian (acc i)

/-- The consensus RED of a named taxon: `np_median` of its accumulated
per-rooting REDs (`_median_summary_outlier_file`, line 627). -/
def taxonConsensus (prd : List (String × RankTable)) (k : Nat × String) :
    Option ℚ :=
  npMedian (taxaAcc prd k)

/-! ### `median_rd_over_phyla` -/
/-- Failure outcomes of the aggregator: `insufficientPhyla` models the
`sys.exit(-1)` at line 737, `phylumFailed` the abort of the whole run by a
failing per-phylum pipeline. -/
inductive AggErr where
  | insufficientPhyla
  | phylumFailed (e : PhyErr)
deriving Repr, DecidableEq

mutual
/-- Lines 740-741: assign every node its stable pre-order id. -/
def assignIdsFrom : PTree → Nat → PTree × Nat
  | .leaf _ n l, k => (.leaf (some k) n l, k + 1)
  | .inner _ nm l cs, k =>
      match assignIdsList cs (k + 1) with
      | (cs', k') => (.inner (some k) nm l cs', k')

/-- Pre-order id assignment over a forest. -/
def assignIdsList : List PTree → Nat → List PTree × Nat
  | [], k => ([], k)
  | c :: cs, k =>
      match assignIdsFrom c k with
      | (c', k') =>
        match assignIdsList cs k' with
        | (cs', k'') => (c' :: cs', k'')
end

def assignIds (t : PTree) : PTree := (assignIdsFrom t 0).1

/-- Lines 744-783 after the phyla-count guard: run the per-phylum
pipeline over the given phyla in order and build the per-phylum tables
and the per-node accumulator. -/
def medianRdOverPhylaList (tree : PTree)
    (taxonomy : List (String × List String)) (picks : String → Nat → Nat)
    (fuel : Nat) (phyla : List String) :
    Except AggErr (List (String × RankTable) × (Nat → List ℚ)) :=
  match runPhyla (perPhylum (assignIds tree) taxonomy picks fuel) phyla with
  | .error e => .error (.phylumFailed e)
  | .ok rs => .ok (rs.map (fun pr => (phylumKey pr.1, pr.2.table)), nodeAcc rs)

/-- `median_rd_over_phyla` (lines 710-783): filter the tree's phyla by the
trusted set, require at least two (line 735-737, `sys.exit(-1)`), then
aggregate. -/
def medianRdOverPhyla (tree : PTree)
    (taxonomy : List (String × List String)) (taxaForInference : List String)
    (picks : String → Nat → Nat) (fuel : Nat) :
    Except AggErr (List (String × RankTable) × (Nat → List ℚ)) :=
  if ((getPhylaLineages tree).filter
      (fun p => decide (p ∈ taxaForInference))).length < 2
  then .error .insufficientPhyla
  else medianRdOverPhylaList tree taxonomy picks fuel
    ((getPhylaLineages tree).filter (fun p => decide (p ∈ taxaForInference)))

/-- Total extraction from a per-phylum outcome (used to state what a
successful run computed). -/
def okD (x : Except PhyErr PerPhylumResult) : PerPhylumResult :=
  match x with
  | .ok r => r
  | .error _ => default

/-- The observations a single rooting contributed for stable id `i`. -/
def obsFor (i : Nat) (pr : PerPhylumResult) : List ℚ :=
  pr.nodeObs.filterMap (fun ov => if ov.1 = some i then some ov.2 else none)

/-! ### Outlier classification relative to rank medians
(`_median_outlier_file`, lines 329-394) -/
/-- One output row of the outlier table. -/
structure OutlierRow where
  taxon : String
  rank : Nat
  dist : ℚ
  delta : Option ℚ
  closestRank : Option Nat
  classification : String
deriving Repr, DecidableEq

/-- Line 393 (source spelling kept). -/
def insufficientMsg : String := "Insufficent data to calcualte median for rank."

/-- Lines 348-355: the median RED of the trusted taxa of each rank; a
rank with no trusted taxon is skipped. -/
def medianRelDistOf (relDists : List (Nat × List (String × ℚ)))
    (inf : List String) : List (Nat × ℚ) :=
  relDists.filterMap (fun rd =>
    (npMedian ((rd.2.filter (fun td => decide (td.1 ∈ inf))).map
      (fun td => td.2))).map (fun m => (rd.1, m)))

/-- Lines 364-369: the rank whose median is nearest to the clade's RED
(fold seeded with `1e10`, strict improvement). -/
def closestRankOf (medians : List (Nat × ℚ)) (dist : ℚ) : Option Nat :=
  (medians.foldl
    (fun best rm =>
      match best with
      | none => if |dist - rm.2| < (10 : ℚ) ^ 10 then some (rm.1, |dist - rm.2|)
                else none
      | some b => if |dist - rm.2| < b.2 then some (rm.1, |dist - rm.2|)
                  else some b)
    none).map (fun b => b.1)

/-- Lines 361-393: the row written for one clade. -/
def outlierRow (medians : List (Nat × ℚ)) (rank : Nat) (td : String × ℚ) :
    OutlierRow :=
  match medians.lookup rank with
  | some m =>
    { taxon := td.1, rank := rank, dist := td.2, delta := some (td.2 - m),
      closestRank := closestRankOf medians td.2,
      classification := classifyDelta (td.2 - m) }
  | none =>
    { taxon := td.1, rank := rank, dist := td.2, delta := none,
      closestRank := none, classification := insufficientMsg }

/-- `_median_outlier_file`: every clade of every rank produces a row. -/
def medianOutlierRows (relDists : List (Nat × List (String × ℚ)))
    (inf : List String) : List OutlierRow :=
  relDists.flatMap (fun rd =>
    rd.2.map (fun td => outlierRow (medianRelDistOf relDists inf) rd.1 td))

/-! ### Percentiles of the trusted taxa (`_distribution_plot`,
lines 195-257) -/
/-- `numpy.percentile` of a non-empty sorted sample at percentile `q`,
with numpy's default linear interpolation: the value at fractional
position `q / 100 * (n - 1)`. -/
def percentileOfSorted (s : List ℚ) (q : ℚ) : ℚ :=
  let pos : ℚ := q * ((s.length : ℚ) - 1) / 100
  let lo : Nat := pos.num.toNat / pos.den
  s.getD lo 0 + (pos - (lo : ℚ)) * (s.getD (lo + 1) (s.getD lo 0) - s.getD lo 0)

/-- `np_percentile(v, qs)`.  On an empty sample numpy raises, which the
guard at line 199 prevents; the embedding renders that case as `none`. -/
def npPercentile (v : List ℚ) (qs : List ℚ) : Option (List ℚ) :=
  if v.isEmpty then none
  else some (qs.map (percentileOfSorted (v.insertionSort (· ≤ ·))))

/-- Lines 196-216: the `percentiles` dict, keyed by the enumeration index
`i` of the rank; a rank whose trusted-taxa sample `v` is empty
(`len(v) == 0`, line 199) is skipped and gets no entry.  `i` is the
running enumeration index. -/
def distPercentilesFrom (inf : List String) :
    Nat → List (Nat × List (String × ℚ)) → List (Nat × List ℚ)
  | _, [] => []
  | i, rd :: rest =>
    match npPercentile ((rd.2.filter (fun td => decide (td.1 ∈ inf))).map
        (fun td => td.2)) [10, 50, 90] with
    | none => distPercentilesFrom inf (i + 1) rest
    | some ps => (i, ps) :: distPercentilesFrom inf (i + 1) rest

/-- The `percentiles` dict of `_distribution_plot` for the whole table. -/
def distributionPercentiles (relDists : List (Nat × List (String × ℚ)))
    (inf : List String) : List (Nat × List ℚ) :=
  distPercentilesFrom inf 0 relDists

/-- One row of the distribution table (lines 249-258): taxon, RED, the
three percentiles and the percentile-outlier column. -/
structure DistRow where
  taxon : String
  dist : ℚ
  p10 : ℚ
  p50 : ℚ
  p90 : ℚ
  percentileOutlier : String
deriving Repr, DecidableEq

/-- Line 255 (source spelling kept). -/
def insufficientPercentilesMsg : String :=
  "Insufficent data to calculate percentiles"

/-- Lines 249-258: the distribution-table row of one clade.  When the
clade's rank has an entry in `percentiles` the outlier flag is
`str(not (dist >= p10 and dist <= p90))`; otherwise the percentiles are
reported as `-1` and the flag is the insufficient-data message. -/
def distRow (ps : List (Nat × List ℚ)) (i : Nat) (td : String × ℚ) :
    DistRow :=
  match ps.lookup i with
  | some p =>
    { taxon := td.1, dist := td.2,
      p10 := p.getD 0 0, p50 := p.getD 1 0, p90 := p.getD 2 0,
      percentileOutlier :=
        if td.2 ≥ p.getD 0 0 ∧ td.2 ≤ p.getD 2 0 then "False" else "True" }
  | none =>
    { taxon := td.1, dist := td.2, p10 := -1, p50 := -1, p90 := -1,
      percentileOutlier := insufficientPercentilesMsg }

/-- Lines 246-258: every clade of every rank produces a distribution
row, ranks taken in enumeration order. -/
def distributionRowsFrom (ps : List (Nat × List ℚ)) :
    Nat → List (Nat × List (String × ℚ)) → List DistRow
  | _, [] => []
  | i, rd :: rest =>
    rd.2.map (fun td => distRow ps i td) ++ distributionRowsFrom ps (i + 1) rest

/-- The full distribution table of `_distribution_plot`. -/
def distributionRows (relDists : List (Nat × List (String × ℚ)))
    (inf : List String) : List DistRow :=
  distributionRowsFrom (distributionPercentiles relDists inf) 0 relDists

/-! ### Shared concrete inputs for the evaluation theorems -/
/-- Taxonomy of the running example: two phyla of two genomes each. -/
def exTaxonomy : List (String × List String) :=
  [("o1", ["d__D", "p__X"]), ("o2", ["d__D", "p__X"]),
   ("i1", ["d__D", "p__Y"]), ("i2", ["d__D", "p__Y"])]

/-- The running example tree: a root with the two phylum clades. -/
def exTree : PTree :=
  .inner none (some "d__D") 0
    [.inner none (some "p__X") 1 [.leaf none "o1" 1, .leaf none "o2" 1],
     .inner none (some "p__Y") 1 [.leaf none "i1" 1, .leaf none "i2" 1]]

/-- Total extraction from an aggregator outcome. -/
def okAgg (x : Except AggErr (List (String × RankTable) × (Nat → List ℚ))) :
    List (String × RankTable) × (Nat → List ℚ) :=
  match x with
  | .ok r => r
  | .error _ => ([], fun _ => [])

/-- Total extraction from a rerooting outcome. -/
def okRootT (x : Except PhyErr PTree) : PTree :=
  match x with
  | .ok t => t
  | .error _ => .leaf none "" 0

/-- Total extraction from a store-level rerooting outcome. -/
def okStore (x : Except PhyErr (List PTree × Nat)) : List PTree × Nat :=
  match x with
  | .ok r => r
  | .error _ => ([], 0)

/-- The injected deterministic random source of the examples. -/
def exPicks : String → Nat → Nat := fun _ _ => 0

/-- A tree in which both root-level clades carry the label `p__X`, so
that after rooting on `p__X` no root child qualifies as ingroup. -/
def exTreeC10 : PTree :=
  .inner none (some "d__D") 0
    [.inner none (some "p__X") 1 [.leaf none "o1" 1, .leaf none "o2" 1],
     .inner none (some "p__X") 1 [.leaf none "i1" 1, .leaf none "i2" 1]]

/-- Rank-indexed RED table with exactly one trusted taxon at rank 1 and
two at rank 2. -/
def exRel : List (Nat × List (String × ℚ)) :=
  [(1, [("p__A", 1/2)]), (2, [("c__B", 1/2), ("c__C", 3/5)])]

/-- Trusted taxa of `exRel`. -/
def exInf : List String := ["p__A", "c__B", "c__C"]

end AutoRank

/-! ### Theorems -/

unseal Rat.add Rat.sub Rat.mul Rat.inv

namespace AutoRank

open PTree

theorem insertionSort_eq_of_perm {l₁ l₂ : List ℚ} (h : l₁.Perm l₂) :
    l₁.insertionSort (· ≤ ·) = l₂.insertionSort (· ≤ ·) := by
  refine List.eq_of_perm_of_sorted (r := fun x1 x2 : ℚ => x1 ≤ x2) ?_ ?_ ?_
  · exact ((List.perm_insertionSort _ l₁).trans h).trans
      (List.perm_insertionSort _ l₂).symm
  · exact List.sorted_insertionSort _ l₁
  · exact List.sorted_insertionSort _ l₂

/-- The median only depends on the multiset of observations. -/
theorem npMedian_perm {l₁ l₂ : List ℚ} (h : l₁.Perm l₂) :
    npMedian l₁ = npMedian l₂ := by
  unfold npMedian
  rw [insertionSort_eq_of_perm h]
  rcases l₁ with _ | ⟨a, t⟩
  · simp at h ⊢
    simp [h]
  · have h2 : l₂ ≠ [] := by
      intro hc
      subst hc
      exact absurd h.length_eq (by simp)
    simp [h2]

namespace PTree

@[simp] theorem leafNames_leaf (i : Option Nat) (n : String) (l : ℚ) :
    leafNames (.leaf i n l) = [n] := rfl
theorem leafNamesList_eq (cs : List PTree) :
    leafNamesList cs = cs.flatMap leafNames := by
  induction cs with
  | nil => rfl
  | cons c t ih => rw [leafNamesList, ih, List.flatMap_cons]

@[simp] theorem leafNames_inner (i : Option Nat) (nm : Option String) (l : ℚ)
    (cs : List PTree) :
    leafNames (.inner i nm l cs) = cs.flatMap leafNames := by
  rw [leafNames, leafNamesList_eq]

@[simp] theorem leafNames_setLen (t : PTree) (l : ℚ) :
    (t.setLen l).leafNames = t.leafNames := by
  cases t <;> simp [setLen]

/-- Extracting a child splits the leaf multiset of a node. -/
theorem flatMap_perm_of_getElem? {cs : List PTree} {j : Nat} {c : PTree}
    (h : cs[j]? = some c) :
    (cs.flatMap leafNames).Perm
      (c.leafNames ++ (cs.eraseIdx j).flatMap leafNames) := by
  obtain ⟨hj, hc⟩ := List.getElem?_eq_some_iff.mp h
  have hdecomp : cs = cs.take j ++ c :: cs.drop (j + 1) := by
    conv_lhs => rw [← List.take_append_drop j cs]
    rw [List.drop_eq_getElem_cons hj, hc]
  rw [List.eraseIdx_eq_take_drop_succ]
  conv_lhs => rw [hdecomp]
  rw [List.flatMap_append, List.flatMap_cons, List.flatMap_append,
    ← List.append_assoc, ← List.append_assoc]
  exact (List.perm_append_comm.append_right _)

/-- The reorientation step preserves the leaf multiset: the result holds
the leaves of the subtree being processed together with those of the
already reoriented part. -/
theorem rerootGo_leafNames : ∀ (path : List Nat) (t acc T : PTree),
    rerootGo t path acc = some T →
    T.leafNames.Perm (t.leafNames ++ acc.leafNames) := by
  intro path
  induction path with
  | nil => intro t acc T h; cases t <;> simp [rerootGo] at h
  | cons j rest ih =>
    intro t acc T h
    cases t with
    | leaf i n l => simp [rerootGo] at h
    | inner i nm l cs =>
      rw [rerootGo] at h
      cases hc : cs[j]? with
      | none => rw [hc] at h; exact absurd h (by simp)
      | some c =>
        rw [hc] at h
        simp only at h
        by_cases hrest : rest.isEmpty
        · rw [if_pos hrest] at h
          have hT := (Option.some_inj.mp h).symm
          subst hT
          simp only [leafNames_inner, List.flatMap_cons, List.flatMap_nil,
            List.flatMap_append, leafNames_setLen, List.append_nil]
          rw [← List.append_assoc]
          exact ((flatMap_perm_of_getElem? hc).symm.append_right _)
        · rw [if_neg hrest] at h
          have hrec := ih c _ T h
          simp only [leafNames_inner, List.flatMap_append, List.flatMap_cons,
            List.flatMap_nil, List.append_nil] at hrec ⊢
          refine hrec.trans ?_
          rw [← List.append_assoc]
          exact ((flatMap_perm_of_getElem? hc).symm.append_right _)

/-- Leaf names of the old-root-side accumulator built by
`rerootAtEdgePath`. -/
theorem accOf_leafNames (i : Option Nat) (nm : Option String)
    (others : List PTree) (hl : ℚ) :
    (match others with
      | [o] => o.setLen (o.edgeLen + hl)
      | _ => PTree.inner i nm hl others).leafNames =
      others.flatMap leafNames := by
  match others with
  | [] => simp
  | [o] => simp
  | o₁ :: o₂ :: os => simp

/-- Rerooting preserves the multiset of leaf names. -/
theorem rerootAtEdgePath_leafNames {t : PTree} {path : List Nat} {T : PTree}
    (h : rerootAtEdgePath t path = some T) :
    T.leafNames.Perm t.leafNames := by
  cases t with
  | leaf i n l => simp [rerootAtEdgePath] at h
  | inner i nm l cs =>
    cases path with
    | nil => simp [rerootAtEdgePath] at h
    | cons j rest =>
      rw [rerootAtEdgePath] at h
      cases hc : cs[j]? with
      | none => rw [hc] at h; exact absurd h (by simp)
      | some c =>
        rw [hc] at h
        simp only at h
        by_cases hrest : rest.isEmpty
        · rw [if_pos hrest] at h
          have hT := (Option.some_inj.mp h).symm
          subst hT
          simp only [leafNames_inner, List.flatMap_cons, List.flatMap_nil,
            leafNames_setLen, List.append_nil, accOf_leafNames]
          exact (flatMap_perm_of_getElem? hc).symm
        · rw [if_neg hrest] at h
          have := rerootGo_leafNames rest c _ T h
          rw [accOf_leafNames] at this
          simpa using this.trans (flatMap_perm_of_getElem? hc).symm

/-- Rerooting on the edge of a leaf produces a new root with the leaf
(half its former edge) as first child. -/
theorem rerootGo_shape : ∀ (path : List Nat) (t acc : PTree) {T : PTree}
    {li : Option Nat} {x : String} {ll : ℚ},
    subtreeAt t path = some (.leaf li x ll) →
    rerootGo t path acc = some T →
    ∃ R, T = .inner none none 0 [.leaf li x (ll / 2), R] := by
  intro path
  induction path with
  | nil =>
    intro t acc T li x ll hs h
    cases t <;> simp [rerootGo] at h
  | cons j rest ih =>
    intro t acc T li x ll hs h
    cases t with
    | leaf i n l => simp [subtreeAt] at hs
    | inner i nm l cs =>
      rw [rerootGo] at h
      rw [subtreeAt] at hs
      cases hc : cs[j]? with
      | none => rw [hc] at h; exact absurd h (by simp)
      | some c =>
        rw [hc] at h hs
        simp only at h hs
        by_cases hrest : rest.isEmpty
        · rw [if_pos hrest] at h
          rw [List.isEmpty_iff.mp hrest] at hs
          rw [subtreeAt] at hs
          have hcl : c = .leaf li x ll := Option.some_inj.mp hs
          subst hcl
          exact ⟨_, (Option.some_inj.mp h).symm⟩
        · rw [if_neg hrest] at h
          exact ih c _ hs h

/-- Root-level version of `rerootGo_shape`. -/
theorem rerootAtEdgePath_shape {t : PTree} {path : List Nat} {T : PTree}
    {li : Option Nat} {x : String} {ll : ℚ}
    (hs : subtreeAt t path = some (.leaf li x ll))
    (h : rerootAtEdgePath t path = some T) :
    ∃ R, T = .inner none none 0 [.leaf li x (ll / 2), R] := by
  cases t with
  | leaf i n l => simp [rerootAtEdgePath] at h
  | inner i nm l cs =>
    cases path with
    | nil => simp [rerootAtEdgePath] at h
    | cons j rest =>
      rw [rerootAtEdgePath] at h
      rw [subtreeAt] at hs
      cases hc : cs[j]? with
      | none => rw [hc] at h; exact absurd h (by simp)
      | some c =>
        rw [hc] at h hs
        simp only at h hs
        by_cases hrest : rest.isEmpty
        · rw [if_pos hrest] at h
          rw [List.isEmpty_iff.mp hrest] at hs
          rw [subtreeAt] at hs
          have hcl : c = .leaf li x ll := Option.some_inj.mp hs
          subst hcl
          exact ⟨_, (Option.some_inj.mp h).symm⟩
        · rw [if_neg hrest] at h
          exact rerootGo_shape rest c _ hs h

/-- `rerootGo` succeeds on any valid non-empty path into an internal
node. -/
theorem rerootGo_succeeds : ∀ (path : List Nat) {i : Option Nat}
    {nm : Option String} {l : ℚ} {cs : List PTree} (acc : PTree) {s : PTree},
    subtreeAt (.inner i nm l cs) path = some s → path ≠ [] →
    ∃ T, rerootGo (.inner i nm l cs) path acc = some T := by
  intro path
  induction path with
  | nil => intro _ _ _ _ _ _ _ hne; exact absurd rfl hne
  | cons j rest ih =>
    intro i nm l cs acc s hs _
    rw [subtreeAt] at hs
    rw [rerootGo]
    cases hc : cs[j]? with
    | none => rw [hc] at hs; exact absurd hs (by simp)
    | some c =>
      rw [hc] at hs
      simp only at hs ⊢
      by_cases hrest : rest.isEmpty
      · rw [if_pos hrest]; exact ⟨_, rfl⟩
      · rw [if_neg hrest]
        have hne : rest ≠ [] := by
          intro hr; rw [hr] at hrest; simp at hrest
        cases c with
        | leaf ci cn cl =>
          rcases rest with _ | ⟨r, rs⟩
          · exact absurd rfl hne
          · rw [subtreeAt] at hs; exact absurd hs (by simp)
        | inner ci cnm cl ccs => exact ih _ hs hne

/-- `rerootAtEdgePath` succeeds on any valid non-empty path into an
internal root. -/
theorem rerootAtEdgePath_succeeds {i : Option Nat} {nm : Option String}
    {l : ℚ} {cs : List PTree} {path : List Nat} {s : PTree}
    (hs : subtreeAt (.inner i nm l cs) path = some s) (hne : path ≠ []) :
    ∃ T, rerootAtEdgePath (.inner i nm l cs) path = some T := by
  rcases path with _ | ⟨j, rest⟩
  · exact absurd rfl hne
  · rw [subtreeAt] at hs
    rw [rerootAtEdgePath]
    cases hc : cs[j]? with
    | none => rw [hc] at hs; exact absurd hs (by simp)
    | some c =>
      rw [hc] at hs
      simp only at hs ⊢
      by_cases hrest : rest.isEmpty
      · rw [if_pos hrest]; exact ⟨_, rfl⟩
      · rw [if_neg hrest]
        have hne2 : rest ≠ [] := by
          intro hr; rw [hr] at hrest; simp at hrest
        cases c with
        | leaf ci cn cl =>
          rcases rest with _ | ⟨r, rs⟩
          · exact absurd rfl hne2
          · rw [subtreeAt] at hs; exact absurd hs (by simp)
        | inner ci cnm cl ccs => exact rerootGo_succeeds rest _ hs hne2

/-- Forest-level search lemma for `pathToLeafList`, relative to the
tree-level property on the members. -/
theorem pathToLeafList_spec (x : String) :
    ∀ (ds : List PTree),
      (∀ d ∈ ds, x ∈ d.leafNames →
        ∃ p li ll, pathToLeaf x d = some p ∧
          subtreeAt d p = some (.leaf li x ll)) →
      x ∈ ds.flatMap leafNames →
      ∃ j p c li ll, pathToLeafList x ds = some (j, p) ∧ ds[j]? = some c ∧
        subtreeAt c p = some (.leaf li x ll) := by
  intro ds
  induction ds with
  | nil => intro _ hx; simp at hx
  | cons d tl ih =>
    intro hmem hx
    by_cases hd : x ∈ d.leafNames
    · obtain ⟨p, li, ll, hp, hsub⟩ := hmem d (List.mem_cons_self d tl) hd
      refine ⟨0, p, d, li, ll, ?_, by simp, hsub⟩
      rw [pathToLeafList, if_pos hd, hp]
      rfl
    · have hx2 : x ∈ tl.flatMap leafNames := by
        rw [List.flatMap_cons] at hx
        rcases List.mem_append.mp hx with h | h
        · exact absurd h hd
        · exact h
      obtain ⟨j, p, c, li, ll, hpl, hget, hsub⟩ :=
        ih (fun d2 h2 => hmem d2 (List.mem_cons_of_mem _ h2)) hx2
      refine ⟨j + 1, p, c, li, ll, ?_, by simpa using hget, hsub⟩
      rw [pathToLeafList, if_neg hd, hpl]
      rfl

/-- A leaf label present in the tree is reachable: `pathToLeaf` finds a
valid path ending at a leaf carrying that label. -/
theorem pathToLeaf_spec : ∀ (t : PTree) (x : String), x ∈ t.leafNames →
    ∃ p li ll, pathToLeaf x t = some p ∧
      subtreeAt t p = some (.leaf li x ll) := by
  intro t
  cases t with
  | leaf i n l =>
    intro x hx
    simp only [leafNames_leaf, List.mem_singleton] at hx
    subst hx
    exact ⟨[], i, l, by simp [pathToLeaf], by simp [subtreeAt]⟩
  | inner i nm l cs =>
    intro x hx
    simp only [leafNames_inner] at hx
    obtain ⟨j, p, c, li, ll, hpl, hget, hsub⟩ :=
      pathToLeafList_spec x cs
        (fun d hd hxd => pathToLeaf_spec d x hxd) hx
    refine ⟨j :: p, li, ll, ?_, ?_⟩
    · rw [pathToLeaf, hpl]
      rfl
    · rw [subtreeAt, hget]
      simpa using hsub
termination_by t => sizeOf t
decreasing_by
  have := List.sizeOf_lt_of_mem hd
  simp only [PTree.inner.sizeOf_spec]
  omega

/-- A child's leaf count is at most the parent's. -/
theorem leafCount_child_le {cs : List PTree} {j : Nat} {c : PTree}
    (hc : cs[j]? = some c) (i : Option Nat) (nm : Option String) (l : ℚ) :
    c.leafCount ≤ (PTree.inner i nm l cs).leafCount := by
  have := (flatMap_perm_of_getElem? hc).length_eq
  simp only [List.length_append] at this
  simp only [leafCount, leafNames_inner]
  omega

/-- The child selected by `mrcaPathList` exists and its path is the
member's own MRCA path. -/
theorem mrcaPathList_spec (S : List String) :
    ∀ (ds : List PTree) {j : Nat} {q : List Nat},
      mrcaPathList S ds = some (j, q) →
      ∃ c, ds[j]? = some c ∧ q = mrcaPath S c := by
  intro ds
  induction ds with
  | nil => intro j q h; rw [mrcaPathList] at h; cases h
  | cons d tl ih =>
    intro j q h
    rw [mrcaPathList] at h
    by_cases hd : S.all (fun s => decide (s ∈ leafNames d))
    · rw [if_pos hd] at h
      obtain ⟨hj, hq⟩ := Prod.mk.injEq .. ▸ Option.some_inj.mp h
      exact ⟨d, by simp [← hj], hq.symm⟩
    · rw [if_neg hd] at h
      cases hpl : mrcaPathList S tl with
      | none => rw [hpl] at h; cases h
      | some ip =>
        rw [hpl] at h
        obtain ⟨hj, hq⟩ := Prod.mk.injEq .. ▸ Option.some_inj.mp h
        obtain ⟨c, hget, hqc⟩ := ih hpl
        refine ⟨c, ?_, hq ▸ hqc⟩
        rw [← hj]
        simpa using hget

/-- The node at the end of `mrcaPath` exists and its leaf count is at most
the whole tree's. -/
theorem mrca_subtree_le (S : List String) : ∀ (t : PTree),
    ∃ m, subtreeAt t (mrcaPath S t) = some m ∧ m.leafCount ≤ t.leafCount := by
  intro t
  cases t with
  | leaf i n l => exact ⟨_, by simp [mrcaPath, subtreeAt], le_refl _⟩
  | inner i nm l cs =>
    rw [mrcaPath]
    cases hf : mrcaPathList S cs with
    | none => exact ⟨_, by simp [subtreeAt], le_refl _⟩
    | some ip =>
      simp only
      obtain ⟨c, hc, hq⟩ := mrcaPathList_spec S cs hf
      obtain ⟨m, hm, hcount⟩ := mrca_subtree_le S c
      refine ⟨m, ?_, le_trans hcount (leafCount_child_le hc i nm l)⟩
      rw [subtreeAt, hc, hq]
      simpa using hm
termination_by t => sizeOf t
decreasing_by
  have := List.sizeOf_lt_of_mem (List.getElem?_mem hc)
  simp only [PTree.inner.sizeOf_spec]
  omega

/-- On the tree produced by rerooting at an ingroup leaf, the MRCA search
for an outgroup that avoids that leaf descends into the non-leaf side. -/
theorem mrcaPath_after_leaf_reroot {li : Option Nat} {x : String} {hl : ℚ}
    {R : PTree} {S : List String} {s₀ : String} (hs₀ : s₀ ∈ S) (hx : x ∉ S)
    (hcov : ∀ s ∈ S, s ∈ R.leafNames) :
    mrcaPath S (.inner none none 0 [.leaf li x hl, R]) =
      1 :: mrcaPath S R := by
  have h0 : (S.all (fun s => decide (s ∈ leafNames (.leaf li x hl)))) = false := by
    rw [List.all_eq_false]
    refine ⟨s₀, hs₀, ?_⟩
    simp only [leafNames_leaf, List.mem_singleton, decide_eq_true_eq]
    intro he
    exact hx (he ▸ hs₀)
  have h1 : (S.all (fun s => decide (s ∈ leafNames R))) = true := by
    simp only [List.all_eq_true, decide_eq_true_eq]
    exact hcov
  have hlist : mrcaPathList S [PTree.leaf li x hl, R] =
      some (1, mrcaPath S R) := by
    rw [mrcaPathList, h0]
    simp only [Bool.false_eq_true, if_false]
    rw [mrcaPathList, h1]
    simp
  rw [mrcaPath, hlist]

end PTree

/-- One iteration of the retry loop always breaks out: after rerooting on
an ingroup leaf, the MRCA of a nonempty outgroup that avoids that leaf
lies inside the other child of the new root, so its leaf count is
strictly below the total. -/
theorem rootLoop_first_iteration
    {t : PTree} {ingroupNames outgroupNames : List String}
    (picks : Nat → Nat) (k : Nat)
    (hnodup : t.leafNames.Nodup)
    (hing : ingroupNames = t.leafNames.filter (fun n => decide (n ∉ outgroupNames)))
    (hingne : ingroupNames ≠ [])
    (hogne : outgroupNames ≠ [])
    (hogsub : ∀ s ∈ outgroupNames, s ∈ t.leafNames) :
    ∀ fuel : Nat,
      rootLoop ingroupNames outgroupNames t.leafCount picks (fuel + 1) k t =
        rootLoop ingroupNames outgroupNames t.leafCount picks 1 k t ∧
      ∃ t' mp, rootLoop ingroupNames outgroupNames t.leafCount picks 1 k t =
        .ok (t', mp) := by
  -- the picked ingroup leaf
  have hlen : 0 < ingroupNames.length := List.length_pos.mpr hingne
  have hidx : picks k % ingroupNames.length < ingroupNames.length :=
    Nat.mod_lt _ hlen
  obtain ⟨x, hx⟩ : ∃ x, ingroupNames[picks k % ingroupNames.length]? = some x :=
    ⟨_, List.getElem?_eq_some_iff.mpr ⟨hidx, rfl⟩⟩
  have hxmem : x ∈ ingroupNames := List.getElem?_mem hx
  have hxleaf : x ∈ t.leafNames := by
    rw [hing] at hxmem
    exact (List.mem_filter.mp hxmem).1
  have hxog : x ∉ outgroupNames := by
    rw [hing] at hxmem
    simpa using (List.mem_filter.mp hxmem).2
  -- t is an internal node
  obtain ⟨s₀, hs₀⟩ : ∃ s₀, s₀ ∈ outgroupNames := by
    rcases outgroupNames with _ | ⟨a, l⟩
    · exact absurd rfl hogne
    · exact ⟨a, List.mem_cons_self a l⟩
  have htinner : ∃ i nm l cs, t = .inner i nm l cs := by
    cases ht : t with
    | leaf i n ll =>
      exfalso
      have hog : s₀ ∈ t.leafNames := hogsub s₀ hs₀
      rw [ht] at hog hxleaf
      simp only [leafNames_leaf, List.mem_singleton] at hog hxleaf
      exact hxog ((hxleaf.trans hog.symm) ▸ hs₀)
    | inner i nm l cs => exact ⟨i, nm, l, cs, rfl⟩
  obtain ⟨ti, tnm, tl, tcs, ht⟩ := htinner
  -- find the leaf and reroot there
  obtain ⟨p, li, ll, hp, hsub⟩ := pathToLeaf_spec t x hxleaf
  have hpne : p ≠ [] := by
    intro hpe
    rw [hpe, subtreeAt] at hsub
    rw [ht] at hsub
    cases hsub
  obtain ⟨T, hT⟩ : ∃ T, t.rerootAtEdgePath p = some T := by
    rw [ht] at hsub ⊢
    exact rerootAtEdgePath_succeeds hsub hpne
  obtain ⟨R, hR⟩ := rerootAtEdgePath_shape hsub hT
  have hperm : T.leafNames.Perm t.leafNames := rerootAtEdgePath_leafNames hT
  have hTleaves : T.leafNames = x :: R.leafNames := by
    rw [hR]
    simp
  -- the outgroup lies inside R
  have hcov : ∀ s ∈ outgroupNames, s ∈ R.leafNames := by
    intro s hs
    have hst : s ∈ T.leafNames := hperm.mem_iff.mpr (hogsub s hs)
    rw [hTleaves] at hst
    rcases List.mem_cons.mp hst with hsx | hsR
    · exact absurd (hsx ▸ hs) hxog
    · exact hsR
  have hmrca : mrcaPath outgroupNames T = 1 :: mrcaPath outgroupNames R := by
    rw [hR]
    exact mrcaPath_after_leaf_reroot hs₀ hxog hcov
  obtain ⟨m, hm, hmle⟩ := mrca_subtree_le outgroupNames R
  have hsubT : subtreeAt T (mrcaPath outgroupNames T) = some m := by
    rw [hmrca, hR, subtreeAt]
    simpa using hm
  have hcount : m.leafCount < t.leafCount := by
    have hTcount : T.leafCount = R.leafCount + 1 := by
      simp [leafCount, hTleaves]
    have := hperm.length_eq
    simp only [leafCount] at *
    omega
  intro fuel
  constructor
  · rw [rootLoop, rootLoop, hx]
    simp only [hp, hT, hsubT, Option.getD_some]
    rw [if_pos (Nat.ne_of_lt hcount), if_pos (Nat.ne_of_lt hcount)]
  · refine ⟨T, mrcaPath outgroupNames T, ?_⟩
    rw [rootLoop, hx]
    simp only [hp, hT, hsubT, Option.getD_some]
    rw [if_pos (Nat.ne_of_lt hcount)]

/-- The retry loop never signals an empty outgroup: that check happens
before the loop. -/
theorem rootLoop_ne_emptyOutgroup (ing og : List String) (total : Nat)
    (picks : Nat → Nat) :
    ∀ (fuel k : Nat) (t : PTree),
      rootLoop ing og total picks fuel k t ≠ .error .emptyOutgroup := by
  intro fuel
  induction fuel with
  | zero =>
    intro k t h
    rw [rootLoop] at h
    cases h
  | succ n ih =>
    intro k t h
    rw [rootLoop] at h
    split at h
    · cases h
    · split at h
      · cases h
      · split at h
        · cases h
        · split at h
          · cases h
          · exact ih (k + 1) _ h

/-- `root_with_outgroup` exits with the empty-outgroup failure exactly
when no tree leaf belongs to the outgroup set. -/
theorem rootWithOutgroup_emptyOutgroup_iff (t : PTree)
    (taxonomy : List (String × List String)) (og : String)
    (picks : Nat → Nat) (fuel : Nat) :
    rootWithOutgroup t taxonomy og picks fuel = .error .emptyOutgroup ↔
      t.leafNames.filter (fun n => decide (n ∈ outgroupOf taxonomy og)) = [] := by
  unfold rootWithOutgroup
  by_cases hc :
      (t.leafNames.filter (fun n => decide (n ∈ outgroupOf taxonomy og))).length = 0
  · rw [if_pos hc]
    exact ⟨fun _ => List.length_eq_zero.mp hc, fun _ => rfl⟩
  · rw [if_neg hc]
    constructor
    · intro h
      split at h
      · next e he =>
        injection h with h2
        subst h2
        exact absurd he (rootLoop_ne_emptyOutgroup _ _ _ _ _ _ _)
      · next pr he =>
        split at h
        · cases h
        · split at h
          · cases h
          · cases h
    · intro h
      exact absurd (List.length_eq_zero.mpr h) hc

/-- The loop only writes at `ref`. -/
theorem rootLoopStore_frame (ing og : List String) (total : Nat)
    (picks : Nat → Nat) (ref : Nat) :
    ∀ (fuel k : Nat) (store store' : List PTree) (mp : List Nat),
      rootLoopStore ing og total picks ref fuel k store = .ok (store', mp) →
      ∀ i, i ≠ ref → store'[i]? = store[i]? := by
  intro fuel
  induction fuel with
  | zero => intro k store store' mp h; rw [rootLoopStore] at h; cases h
  | succ n ih =>
    intro k store store' mp h i hi
    rw [rootLoopStore] at h
    split at h
    · cases h
    · split at h
      · cases h
      · split at h
        · cases h
        · split at h
          · cases h
          · split at h
            · have hs := Except.ok.inj h
              have hstore : store.set ref _ = store' := congrArg Prod.fst hs
              rw [← hstore]
              exact List.getElem?_set_ne (fun he => hi he.symm)
            · have := ih (k + 1) _ store' mp h i hi
              rw [this]
              exact List.getElem?_set_ne (fun he => hi he.symm)

/-- `root_with_outgroup` operates on a deep copy: every tree in the store
other than the fresh clone — in particular the original input tree — is
unchanged by the call. -/
theorem rootWithOutgroupStore_frame {store : List PTree} {ref : Nat}
    {taxonomy : List (String × List String)} {outgroupTaxa : String}
    {picks : Nat → Nat} {fuel : Nat} {store' : List PTree} {ref' : Nat}
    (h : rootWithOutgroupStore store ref taxonomy outgroupTaxa picks fuel =
      .ok (store', ref')) :
    ref' = store.length ∧ ∀ i, i < store.length → store'[i]? = store[i]? := by
  unfold rootWithOutgroupStore at h
  split at h
  · cases h
  · next inputTree hin =>
    split at h
    · cases h
    · split at h
      · cases h
      · next pr store2 mp hloop =>
        have hframe2 : ∀ i, i ≠ store.length → store2[i]? = (store ++ [inputTree])[i]? :=
          rootLoopStore_frame _ _ _ _ _ _ _ _ _ _ hloop
        split at h
        · cases h
        · next t' ht' =>
          split at h
          · have hs := Except.ok.inj h
            injection hs with h1 h2
            subst h1
            subst h2
            refine ⟨rfl, fun i hi => ?_⟩
            have hne : i ≠ store.length := Nat.ne_of_lt hi
            rw [hframe2 i hne, List.getElem?_append_left hi]
          · split at h
            · cases h
            · have hs := Except.ok.inj h
              injection hs with h1 h2
              subst h1
              subst h2
              refine ⟨rfl, fun i hi => ?_⟩
              have hne : i ≠ store.length := Nat.ne_of_lt hi
              rw [List.getElem?_set_ne (fun he => hne he.symm), hframe2 i hne,
                List.getElem?_append_left hi]

/-- The store-level retry loop agrees with the purely functional one,
with all mutation confined to `ref`. -/
theorem rootLoopStore_eq (ing og : List String) (total : Nat)
    (picks : Nat → Nat) (ref : Nat) :
    ∀ (fuel k : Nat) (store : List PTree) (t : PTree),
      store[ref]? = some t →
      rootLoopStore ing og total picks ref fuel k store =
        (rootLoop ing og total picks fuel k t).map
          (fun pr => (store.set ref pr.1, pr.2)) := by
  intro fuel
  induction fuel with
  | zero => intro k store t ht; rw [rootLoopStore, rootLoop]; rfl
  | succ n ih =>
    intro k store t ht
    rw [rootLoopStore, rootLoop, ht]
    cases hx : ing[picks k % ing.length]? with
    | none => rfl
    | some x =>
      simp only
      cases hp : t.pathToLeaf x with
      | none => rfl
      | some p =>
        simp only
        cases hr : t.rerootAtEdgePath p with
        | none => rfl
        | some t' =>
          simp only
          by_cases hcond :
              ((subtreeAt t' (mrcaPath og t')).getD t').leafCount ≠ total
          · rw [if_pos hcond, if_pos hcond]
            rfl
          · rw [if_neg hcond, if_neg hcond]
            have hlt : ref < store.length := by
              rcases List.getElem?_eq_some_iff.mp ht with ⟨hl, _⟩
              exact hl
            have ht' : (store.set ref t')[ref]? = some t' :=
              List.getElem?_set_eq (by simpa using hlt)
            rw [ih (k + 1) (store.set ref t') t' ht']
            cases rootLoop ing og total picks n (k + 1) t' with
            | error e => rfl
            | ok pr => simp [Except.map, List.set_set]

/-- The store-level `root_with_outgroup` agrees with the purely
functional one: it clones the tree at `ref` to the end of the store and
writes the rerooted result there. -/
theorem rootWithOutgroupStore_eq {store : List PTree} {ref : Nat} {t : PTree}
    (ht : store[ref]? = some t) (taxonomy : List (String × List String))
    (og : String) (picks : Nat → Nat) (fuel : Nat) :
    rootWithOutgroupStore store ref taxonomy og picks fuel =
      (rootWithOutgroup t taxonomy og picks fuel).map
        (fun tr => ((store ++ [t]).set store.length tr, store.length)) := by
  rw [rootWithOutgroupStore, rootWithOutgroup, ht]
  simp only
  by_cases hc :
      (t.leafNames.filter (fun n => decide (n ∈ outgroupOf taxonomy og))).length = 0
  · rw [if_pos hc, if_pos hc]
    rfl
  · rw [if_neg hc, if_neg hc]
    have hconcat : (store ++ [t])[store.length]? = some t :=
      List.getElem?_concat_length store t
    rw [rootLoopStore_eq _ _ _ _ _ fuel 0 (store ++ [t]) t hconcat]
    cases rootLoop
        (t.leafNames.filter (fun n => decide (n ∉ outgroupOf taxonomy og)))
        (t.leafNames.filter (fun n => decide (n ∈ outgroupOf taxonomy og)))
        t.leafCount picks fuel 0 t with
    | error e => rfl
    | ok pr =>
      obtain ⟨t', mp⟩ := pr
      simp only [Except.map]
      have hset : ((store ++ [t]).set store.length t')[store.length]? = some t' := by
        refine List.getElem?_set_eq ?_
        simp
      rw [hset]
      dsimp only
      by_cases hmp : mp.isEmpty
      · simp [hmp, Except.map]
      · simp only [if_neg hmp]
        cases t'.rerootAtEdgePath mp with
        | none => simp [Except.map]
        | some t'' => simp [Except.map, List.set_set]

/-- Forest version of the telescoping lemma, relative to the tree-level
property on the members. -/
theorem leafPathSumsL_rescaleFromL (prd : ℚ) :
    ∀ (ds : List DTree),
      (∀ d ∈ ds, ∀ (acc : ℚ),
        ∀ pr ∈ leafPathSums acc (rescaleFrom prd d), pr.1 = acc + pr.2 - prd) →
      ∀ (acc : ℚ),
        ∀ pr ∈ leafPathSumsL acc (rescaleFromL prd ds),
          pr.1 = acc + pr.2 - prd := by
  intro ds
  induction ds with
  | nil => intro _ acc pr hpr; rw [rescaleFromL, leafPathSumsL] at hpr; simp at hpr
  | cons d tl ih =>
    intro hmem acc pr hpr
    rw [rescaleFromL, leafPathSumsL] at hpr
    rcases List.mem_append.mp hpr with h | h
    · exact hmem d (List.mem_cons_self d tl) acc pr h
    · exact ih (fun d2 h2 => hmem d2 (List.mem_cons_of_mem _ h2)) acc pr h

/-- Telescoping: inside a rescaled subtree hanging below a node of RED
`parentRd`, every leaf path sum is the leaf's RED minus `parentRd`. -/
theorem leafPathSums_rescaleFrom : ∀ (c : DTree) (parentRd acc : ℚ),
    ∀ pr ∈ leafPathSums acc (rescaleFrom parentRd c),
      pr.1 = acc + pr.2 - parentRd := by
  intro c
  cases c with
  | leaf i n l rd =>
    intro parentRd acc pr hpr
    rw [rescaleFrom, leafPathSums] at hpr
    simp only [List.mem_singleton] at hpr
    subst hpr
    ring
  | inner i nm l rd cs =>
    intro parentRd acc pr hpr
    rw [rescaleFrom, leafPathSums] at hpr
    have := leafPathSumsL_rescaleFromL rd cs
      (fun d hd acc2 pr2 hpr2 => leafPathSums_rescaleFrom d rd acc2 pr2 hpr2)
      (acc + (rd - parentRd)) pr hpr
    rw [this]
    ring
termination_by c => sizeOf c
decreasing_by
  have := List.sizeOf_lt_of_mem hd
  simp only [DTree.inner.sizeOf_spec]
  omega

theorem foldl_appendAt {K : Type} [DecidableEq K] (ps : List (K × ℚ)) :
    ∀ (m : K → List ℚ) (k : K),
      (ps.foldl (fun m kv => appendAt m kv.1 kv.2) m) k =
        m k ++ ps.filterMap (fun kv => if kv.1 = k then some kv.2 else none) := by
  induction ps with
  | nil => intro m k; simp
  | cons hd tl ih =>
    intro m k
    rw [List.foldl_cons, ih, List.filterMap_cons]
    by_cases hk : hd.1 = k
    · rw [if_pos hk]
      simp [appendAt, hk]
    · rw [if_neg hk]
      have : k ≠ hd.1 := fun he => hk he.symm
      simp [appendAt, this]

theorem accPairs_foldl_eq {K : Type} [DecidableEq K] :
    ∀ (pss : List (List (K × ℚ))) (m : K → List ℚ) (k : K),
      (pss.foldl (fun m ps => ps.foldl (fun m kv => appendAt m kv.1 kv.2) m) m) k =
        m k ++ (pss.flatMap id).filterMap
          (fun kv => if kv.1 = k then some kv.2 else none) := by
  intro pss
  induction pss with
  | nil => intro m k; simp
  | cons hd tl ih =>
    intro m k
    rw [List.foldl_cons, ih, foldl_appendAt, List.flatMap_cons]
    simp [List.filterMap_append]

/-- The accumulated list for a key is the concatenation, in processing
order, of that key's observations. -/
theorem accPairs_eq {K : Type} [DecidableEq K] (pss : List (List (K × ℚ)))
    (k : K) :
    accPairs pss k = (pss.flatMap id).filterMap
      (fun kv => if kv.1 = k then some kv.2 else none) := by
  rw [accPairs, accPairs_foldl_eq]
  simp

/-- A successful `runPhyla` pairs each phylum, in order, with its own
per-phylum result, every one of which succeeded. -/
theorem runPhyla_ok_eq {f : String → Except PhyErr PerPhylumResult} :
    ∀ {l : List String} {rs : List (String × PerPhylumResult)},
      runPhyla f l = .ok rs →
      rs = l.map (fun p => (p, okD (f p))) ∧ ∀ p ∈ l, ∃ r, f p = .ok r := by
  intro l
  induction l with
  | nil =>
    intro rs h
    rw [runPhyla] at h
    exact ⟨(Except.ok.inj h).symm, by simp⟩
  | cons p ps ih =>
    intro rs h
    rw [runPhyla] at h
    cases hf : f p with
    | error e => rw [hf] at h; cases h
    | ok r =>
      rw [hf] at h
      simp only at h
      cases hr : runPhyla f ps with
      | error e => rw [hr] at h; cases h
      | ok rs' =>
        rw [hr] at h
        obtain ⟨heq, hall⟩ := ih hr
        refine ⟨?_, ?_⟩
        · rw [← Except.ok.inj h, heq]
          simp [okD, hf]
        · intro q hq
          rcases List.mem_cons.mp hq with hq | hq
          · exact ⟨r, hq ▸ hf⟩
          · exact hall q hq

theorem obsKeyed_filterMap (i : Nat) (obs : List (Option Nat × ℚ)) :
    (obsKeyed obs).filterMap
      (fun kv => if kv.1 = i then some kv.2 else none) =
    obs.filterMap (fun ov => if ov.1 = some i then some ov.2 else none) := by
  induction obs with
  | nil => simp [obsKeyed]
  | cons ov tl ih =>
    rw [obsKeyed, List.filterMap_cons]
    cases hov : ov.1 with
    | none =>
      simp only [Option.map_none']
      rw [obsKeyed] at ih
      rw [ih, List.filterMap_cons, hov]
      simp
    | some j =>
      simp only [Option.map_some']
      rw [List.filterMap_cons]
      rw [obsKeyed] at ih
      rw [ih, List.filterMap_cons, hov]
      by_cases hji : j = i
      · subst hji
        simp
      · simp only [hji, if_false]
        have : ¬ (some j = some i) := fun he => hji (Option.some_inj.mp he)
        simp [this, hji]

/-- The per-node accumulator is exactly the concatenation over the
processed rootings of each rooting's observations for that id. -/
theorem nodeAcc_eq (rs : List (String × PerPhylumResult)) (i : Nat) :
    nodeAcc rs i = rs.flatMap (fun pr => obsFor i pr.2) := by
  rw [nodeAcc, accPairs_eq]
  have h1 : ((rs.map (fun pr => obsKeyed pr.2.nodeObs)).flatMap id) =
      rs.flatMap (fun pr => obsKeyed pr.2.nodeObs) := by
    simp [List.flatMap_def]
  rw [h1, List.filterMap_bind]
  congr 1
  funext pr
  exact obsKeyed_filterMap i pr.2.nodeObs

/-- The per-(rank, taxon) accumulator is exactly the concatenation over
the processed rootings of that key's table entries. -/
theorem taxaAcc_eq (prd : List (String × RankTable)) (k : Nat × String) :
    taxaAcc prd k = prd.flatMap
      (fun pr => pr.2.filterMap
        (fun kv => if kv.1 = k then some kv.2 else none)) := by
  rw [taxaAcc, accPairs_eq]
  have h1 : ((prd.map (fun pr => pr.2)).flatMap id) =
      prd.flatMap (fun pr => pr.2) := by
    simp [List.flatMap_def]
  rw [h1, List.filterMap_bind]

theorem lookup_none_of_not_mem_keys {l : List (Nat × ℚ)} {k : Nat}
    (h : ∀ km ∈ l, km.1 ≠ k) : l.lookup k = none := by
  induction l with
  | nil => rfl
  | cons a tl ih =>
    have ha : a.1 ≠ k := h a (List.mem_cons_self a tl)
    obtain ⟨a1, a2⟩ := a
    rw [List.lookup_cons]
    simp only [show (k == a1) = false from
      beq_eq_false_iff_ne.mpr (fun he => ha he.symm)]
    exact ih (fun km hm => h km (List.mem_cons_of_mem _ hm))

theorem medianRelDistOf_keys (relDists : List (Nat × List (String × ℚ)))
    (inf : List String) :
    ∀ km ∈ medianRelDistOf relDists inf,
      km.1 ∈ relDists.map (fun rd => rd.1) := by
  intro km hkm
  obtain ⟨rd, hrd, hmap⟩ := List.mem_filterMap.mp hkm
  obtain ⟨m, _, hpair⟩ := Option.map_eq_some'.mp hmap
  rw [← hpair]
  exact List.mem_map_of_mem _ hrd

/-- Under distinct rank keys, the lookup of a rank's median is exactly
the median of its trusted REDs (absent when there are none). -/
theorem lookup_medianRelDistOf (inf : List String) :
    ∀ {relDists : List (Nat × List (String × ℚ))},
      (relDists.map (fun rd => rd.1)).Nodup →
      ∀ rd ∈ relDists,
        (medianRelDistOf relDists inf).lookup rd.1 =
          npMedian ((rd.2.filter (fun td => decide (td.1 ∈ inf))).map
            (fun td => td.2)) := by
  intro relDists
  induction relDists with
  | nil => intro _ rd hrd; simp at hrd
  | cons hd tl ih =>
    intro hnd rd hrd
    have hnd2 : (tl.map (fun rd => rd.1)).Nodup := (List.nodup_cons.mp hnd).2
    have hhd : hd.1 ∉ tl.map (fun rd => rd.1) := (List.nodup_cons.mp hnd).1
    rcases List.mem_cons.mp hrd with hrd | hrd
    · subst hrd
      rw [medianRelDistOf, List.filterMap_cons]
      cases hm : npMedian ((rd.2.filter (fun td => decide (td.1 ∈ inf))).map
          (fun td => td.2)) with
      | none =>
        simp only [hm, Option.map_none']
        refine lookup_none_of_not_mem_keys (fun km hkm => ?_)
        intro hke
        exact hhd (hke ▸ medianRelDistOf_keys tl inf km hkm)
      | some m =>
        simp only [hm, Option.map_some']
        rw [List.lookup_cons]
        simp
    · rw [medianRelDistOf, List.filterMap_cons]
      have hne : hd.1 ≠ rd.1 := by
        intro he
        exact hhd (he ▸ List.mem_map_of_mem _ hrd)
      cases hm : npMedian ((hd.2.filter (fun td => decide (td.1 ∈ inf))).map
          (fun td => td.2)) with
      | none =>
        simp only [hm, Option.map_none']
        exact ih hnd2 rd hrd
      | some m =>
        simp only [hm, Option.map_some']
        rw [List.lookup_cons]
        simp only [show (rd.1 == hd.1) = false from
          beq_eq_false_iff_ne.mpr (fun he => hne he.symm)]
        exact ih hnd2 rd hrd

theorem lookup_eq_none_of_keys_ne {β : Type} {l : List (Nat × β)} {k : Nat}
    (h : ∀ km ∈ l, km.1 ≠ k) : l.lookup k = none := by
  induction l with
  | nil => rfl
  | cons a tl ih =>
    have ha : a.1 ≠ k := h a (List.mem_cons_self a tl)
    obtain ⟨a1, a2⟩ := a
    rw [List.lookup_cons]
    simp only [show (k == a1) = false from
      beq_eq_false_iff_ne.mpr (fun he => ha he.symm)]
    exact ih (fun km hm => h km (List.mem_cons_of_mem _ hm))

/-- Every key of `distPercentilesFrom inf i relDists` is at least `i`. -/
theorem distPercentilesFrom_keys (inf : List String) :
    ∀ (relDists : List (Nat × List (String × ℚ))) (i : Nat),
      ∀ km ∈ distPercentilesFrom inf i relDists, i ≤ km.1 := by
  intro relDists
  induction relDists with
  | nil => intro i km hkm; simp [distPercentilesFrom] at hkm
  | cons hd tl ih =>
    intro i km hkm
    rw [distPercentilesFrom] at hkm
    cases hm : npPercentile ((hd.2.filter (fun td => decide (td.1 ∈ inf))).map
        (fun td => td.2)) [10, 50, 90] with
    | none =>
      rw [hm] at hkm
      exact le_trans (Nat.le_succ i) (ih (i + 1) km hkm)
    | some ps =>
      rw [hm] at hkm
      rcases List.mem_cons.mp hkm with hkm | hkm
      · subst hkm; exact le_refl i
      · exact le_trans (Nat.le_succ i) (ih (i + 1) km hkm)

/-- The `percentiles` entry of the rank at enumeration index `j` is
exactly the percentile triple of its trusted REDs (absent when there are
none). -/
theorem lookup_distPercentilesFrom (inf : List String) :
    ∀ (relDists : List (Nat × List (String × ℚ))) (i j : Nat)
      (rd : Nat × List (String × ℚ)), relDists[j]? = some rd →
      (distPercentilesFrom inf i relDists).lookup (i + j) =
        npPercentile ((rd.2.filter (fun td => decide (td.1 ∈ inf))).map
          (fun td => td.2)) [10, 50, 90] := by
  intro relDists
  induction relDists with
  | nil => intro i j rd h; simp at h
  | cons hd tl ih =>
    intro i j rd h
    cases j with
    | zero =>
      have hrd : hd = rd := by simpa using h
      subst hrd
      rw [distPercentilesFrom]
      cases hm : npPercentile ((hd.2.filter (fun td => decide (td.1 ∈ inf))).map
          (fun td => td.2)) [10, 50, 90] with
      | none =>
        dsimp only
        rw [Nat.add_zero]
        refine lookup_eq_none_of_keys_ne (fun km hkm => ?_)
        have hk := distPercentilesFrom_keys inf tl (i + 1) km hkm
        omega
      | some ps =>
        dsimp only
        rw [Nat.add_zero, List.lookup_cons]
        simp
    | succ j' =>
      simp only [List.getElem?_cons_succ] at h
      rw [distPercentilesFrom]
      have hsh : i + (j' + 1) = (i + 1) + j' := by omega
      cases hm : npPercentile ((hd.2.filter (fun td => decide (td.1 ∈ inf))).map
          (fun td => td.2)) [10, 50, 90] with
      | none =>
        dsimp only
        rw [hsh]
        exact ih (i + 1) j' rd h
      | some ps =>
        dsimp only
        rw [List.lookup_cons]
        have hne : (i + (j' + 1) == i) = false :=
          beq_eq_false_iff_ne.mpr (by omega)
        simp only [hne]
        rw [hsh]
        exact ih (i + 1) j' rd h

/-! ### Claim theorems -/
theorem classifyDelta_mem (d : ℚ) :
    classifyDelta d ∈ ["very overclassified", "overclassified",
      "very underclassified", "underclassified", "OK"] := by
  unfold classifyDelta
  split_ifs <;> simp

/-- C1: for every clade at a rank whose rank median is defined, the
classification is `classifyDelta (clade_RED - rank_median)` — the banding
chain applied in precedence order — and the five bands partition delta
space exactly, with no gaps or overlaps at the boundaries ±0.1 and
±0.2. -/
theorem claim_C1_classification_bands (d : ℚ) :
    (∀ (medians : List (Nat × ℚ)) (rank : Nat) (td : String × ℚ) (m : ℚ),
      medians.lookup rank = some m →
      (outlierRow medians rank td).classification = classifyDelta (td.2 - m)) ∧
    (classifyDelta d = "very overclassified" ↔ d < -2/10) ∧
    (classifyDelta d = "overclassified" ↔ (-2/10 ≤ d ∧ d < -1/10)) ∧
    (classifyDelta d = "OK" ↔ (-1/10 ≤ d ∧ d ≤ 1/10)) ∧
    (classifyDelta d = "underclassified" ↔ (1/10 < d ∧ d ≤ 2/10)) ∧
    (classifyDelta d = "very underclassified" ↔ 2/10 < d) := by
  refine ⟨fun medians rank td m hm => by simp [outlierRow, hm], ?_⟩
  unfold classifyDelta
  split_ifs with h1 h2 h3 h4
  · refine ⟨iff_of_true rfl h1, ?_, ?_, ?_, ?_⟩
    · exact iff_of_false (by decide) (fun h => absurd h1 (not_lt.mpr h.1))
    · exact iff_of_false (by decide) (fun h => absurd h1 (not_lt.mpr (by linarith [h.1])))
    · exact iff_of_false (by decide) (fun h => absurd h1 (not_lt.mpr (by linarith [h.1])))
    · exact iff_of_false (by decide) (fun h => absurd h1 (not_lt.mpr (by linarith)))
  · refine ⟨iff_of_false (by decide) (fun h => absurd h h1), ?_, ?_, ?_, ?_⟩
    · exact iff_of_true rfl ⟨not_lt.mp h1, h2⟩
    · exact iff_of_false (by decide) (fun h => absurd h2 (not_lt.mpr h.1))
    · exact iff_of_false (by decide) (fun h => absurd h2 (not_lt.mpr (by linarith [h.1])))
    · exact iff_of_false (by decide) (fun h => absurd h2 (not_lt.mpr (by linarith)))
  · refine ⟨iff_of_false (by decide) (fun h => absurd h h1), ?_, ?_, ?_, ?_⟩
    · exact iff_of_false (by decide) (fun h => absurd h.2 h2)
    · exact iff_of_false (by decide)
        (fun h => absurd h3 (not_lt.mpr (by linarith [h.2])))
    · exact iff_of_false (by decide) (fun h => absurd h3 (not_lt.mpr h.2))
    · exact iff_of_true rfl h3
  · refine ⟨iff_of_false (by decide) (fun h => absurd h h1), ?_, ?_, ?_, ?_⟩
    · exact iff_of_false (by decide) (fun h => absurd h.2 h2)
    · exact iff_of_false (by decide) (fun h => absurd h4 (not_lt.mpr h.2))
    · exact iff_of_true rfl ⟨h4, not_lt.mp h3⟩
    · exact iff_of_false (by decide) (fun h => absurd h h3)
  · refine ⟨iff_of_false (by decide) (fun h => absurd h h1), ?_, ?_, ?_, ?_⟩
    · exact iff_of_false (by decide) (fun h => absurd h.2 h2)
    · exact iff_of_true rfl ⟨not_lt.mp h2, not_lt.mp h4⟩
    · exact iff_of_false (by decide) (fun h => absurd h.1 h4)
    · exact iff_of_false (by decide) (fun h => absurd h h3)

/-- C2: after the rescaling step (every non-root edge length rewritten to
`RED(n) - RED(parent(n))`), the edge lengths along the path from the root
to any leaf sum exactly to that leaf's RED, whenever the root's RED is
0. -/
theorem claim_C2_rescaled_tree_path_sums (t : DTree) (h0 : t.relDist = 0) :
    ∀ pr ∈ rootPathSums (rescaleTree t), pr.1 = pr.2 := by
  intro pr hpr
  cases t with
  | leaf i n l rd =>
    rw [rescaleTree, rootPathSums] at hpr
    simp only [List.mem_singleton] at hpr
    subst hpr
    simp only [DTree.relDist] at h0
    simp [h0]
  | inner i nm l rd cs =>
    rw [rescaleTree, rootPathSums] at hpr
    have := leafPathSumsL_rescaleFromL rd cs
      (fun d _ acc2 pr2 hpr2 => leafPathSums_rescaleFrom d rd acc2 pr2 hpr2)
      0 pr hpr
    simp only [DTree.relDist] at h0
    rw [this, h0]
    ring

/-- C3: the aggregation aborts with the insufficient-phyla failure (the
`sys.exit(-1)` of line 737), producing no result, exactly when fewer than
two usable candidate phyla are available; with two or more it proceeds to
the per-phylum consensus computation. -/
theorem claim_C3_insufficient_phyla (tree : PTree)
    (taxonomy : List (String × List String)) (inf : List String)
    (picks : String → Nat → Nat) (fuel : Nat) :
    (medianRdOverPhyla tree taxonomy inf picks fuel = .error .insufficientPhyla ↔
      ((getPhylaLineages tree).filter (fun p => decide (p ∈ inf))).length < 2) ∧
    (¬ ((getPhylaLineages tree).filter (fun p => decide (p ∈ inf))).length < 2 →
      (∃ e, medianRdOverPhyla tree taxonomy inf picks fuel =
        .error (.phylumFailed e)) ∨
      (∃ r, medianRdOverPhyla tree taxonomy inf picks fuel = .ok r)) := by
  unfold medianRdOverPhyla
  by_cases hc :
      ((getPhylaLineages tree).filter (fun p => decide (p ∈ inf))).length < 2
  · rw [if_pos hc]
    exact ⟨⟨fun _ => hc, fun _ => rfl⟩, fun h => absurd hc h⟩
  · rw [if_neg hc]
    unfold medianRdOverPhylaList
    constructor
    · constructor
      · intro h
        split at h
        · simp at h
        · simp at h
      · intro h
        exact absurd h hc
    · intro _
      split
      · next e he => exact Or.inl ⟨e, rfl⟩
      · next rs hrs => exact Or.inr ⟨_, rfl⟩

/-- C4: for any tree and outgroup (the outgroup nonempty and drawn from
the tree's leaves, the ingroup the remaining leaves), the randomized
rerooting retry loop exits on its very first attempt — the rerooted
outgroup MRCA can never span every leaf — so its result is the same for
every fuel bound and it never loops forever. -/
theorem claim_C4_retry_loop_bounded {t : PTree}
    {ingroupNames outgroupNames : List String} (picks : Nat → Nat) (k : Nat)
    (hnodup : t.leafNames.Nodup)
    (hing : ingroupNames =
      t.leafNames.filter (fun n => decide (n ∉ outgroupNames)))
    (hingne : ingroupNames ≠ []) (hogne : outgroupNames ≠ [])
    (hogsub : ∀ s ∈ outgroupNames, s ∈ t.leafNames) (fuel : Nat) :
    rootLoop ingroupNames outgroupNames t.leafCount picks (fuel + 1) k t =
      rootLoop ingroupNames outgroupNames t.leafCount picks 1 k t ∧
    ∃ t' mp, rootLoop ingroupNames outgroupNames t.leafCount picks 1 k t =
      .ok (t', mp) :=
  rootLoop_first_iteration picks k hnodup hing hingne hogne hogsub fuel

/-- C5: `root_with_outgroup` fails with the empty-outgroup abort (the
`sys.exit(0)` of line 113) exactly when no tree leaf matches the outgroup
taxon set; no rerooted tree is produced, and a per-phylum failure of this
kind aborts the whole phyla loop with no aggregate result. -/
theorem claim_C5_empty_outgroup (t : PTree)
    (taxonomy : List (String × List String)) (og : String)
    (picks : Nat → Nat) (fuel : Nat) :
    (rootWithOutgroup t taxonomy og picks fuel = .error .emptyOutgroup ↔
      t.leafNames.filter (fun n => decide (n ∈ outgroupOf taxonomy og)) = []) ∧
    (∀ (f : String → Except PhyErr PerPhylumResult) (l : List String)
        (p : String), p ∈ l → f p = .error .emptyOutgroup →
      ∀ rs, runPhyla f l ≠ .ok rs) := by
  refine ⟨rootWithOutgroup_emptyOutgroup_iff t taxonomy og picks fuel, ?_⟩
  intro f l p hp hf rs hok
  obtain ⟨_, hall⟩ := runPhyla_ok_eq hok
  obtain ⟨r, hr⟩ := hall p hp
  rw [hf] at hr
  cases hr

/-- C9: the store-level `root_with_outgroup` clones its input (line 93)
and mutates only the clone: the returned reference is fresh, every
pre-existing store entry — the original input tree in particular — is
unchanged, and the clone holds exactly the rerooted tree the purely
functional `rootWithOutgroup` computes from the original. -/
theorem claim_C9_operates_on_deep_copy {store : List PTree} {ref : Nat}
    {taxonomy : List (String × List String)} {og : String}
    {picks : Nat → Nat} {fuel : Nat} {store' : List PTree} {ref' : Nat}
    (h : rootWithOutgroupStore store ref taxonomy og picks fuel =
      .ok (store', ref')) :
    ref' = store.length ∧
    (∀ i, i < store.length → store'[i]? = store[i]?) ∧
    (∀ t, store[ref]? = some t →
      ∃ tr, rootWithOutgroup t taxonomy og picks fuel = .ok tr ∧
        store'[ref']? = some tr) := by
  obtain ⟨h1, h2⟩ := rootWithOutgroupStore_frame h
  refine ⟨h1, h2, fun t ht => ?_⟩
  have heq := rootWithOutgroupStore_eq ht taxonomy og picks fuel
  rw [h] at heq
  cases hr : rootWithOutgroup t taxonomy og picks fuel with
  | error e => rw [hr] at heq; cases heq
  | ok tr =>
    rw [hr] at heq
    simp only [Except.map] at heq
    have hp := Except.ok.inj heq
    injection hp with hs hr2
    refine ⟨tr, rfl, ?_⟩
    rw [hs, hr2]
    refine List.getElem?_set_self ?_
    simp

/-- C6: the consensus median RED of every node, and of every named taxon
at every rank, is invariant under permutation of the processing order of
the candidate phyla. -/
theorem claim_C6_order_invariance (tree : PTree)
    (taxonomy : List (String × List String)) (picks : String → Nat → Nat)
    (fuel : Nat) {l₁ l₂ : List String} (hp : l₁.Perm l₂)
    {r₁ r₂ : List (String × RankTable) × (Nat → List ℚ)}
    (h₁ : medianRdOverPhylaList tree taxonomy picks fuel l₁ = .ok r₁)
    (h₂ : medianRdOverPhylaList tree taxonomy picks fuel l₂ = .ok r₂) :
    (∀ i, consensusRed r₁.2 i = consensusRed r₂.2 i) ∧
    (∀ k, taxonConsensus r₁.1 k = taxonConsensus r₂.1 k) := by
  unfold medianRdOverPhylaList at h₁ h₂
  cases hr₁ : runPhyla (perPhylum (assignIds tree) taxonomy picks fuel) l₁ with
  | error e => rw [hr₁] at h₁; cases h₁
  | ok rs₁ =>
    rw [hr₁] at h₁
    cases hr₂ : runPhyla (perPhylum (assignIds tree) taxonomy picks fuel) l₂ with
    | error e => rw [hr₂] at h₂; cases h₂
    | ok rs₂ =>
      rw [hr₂] at h₂
      simp only at h₁ h₂
      have e₁ := Except.ok.inj h₁
      have e₂ := Except.ok.inj h₂
      obtain ⟨heq₁, _⟩ := runPhyla_ok_eq hr₁
      obtain ⟨heq₂, _⟩ := runPhyla_ok_eq hr₂
      have hprs : rs₁.Perm rs₂ := by
        rw [heq₁, heq₂]
        exact hp.map _
      rw [← e₁, ← e₂]
      dsimp only
      constructor
      · intro i
        unfold consensusRed
        apply npMedian_perm
        rw [nodeAcc_eq, nodeAcc_eq]
        exact List.Perm.flatMap_right _ hprs
      · intro k
        unfold taxonConsensus
        apply npMedian_perm
        rw [taxaAcc_eq, taxaAcc_eq]
        exact List.Perm.flatMap_right _ (hprs.map _)

/-- C7: after all phyla are processed, the per-node accumulator for a
stable id is exactly the concatenation of the observations of the
rootings that visited it, the consensus is the `numpy` median of that
accumulator, and a never-visited node has no consensus value — rendered
as `none`, never as `some 0`. -/
theorem claim_C7_consensus_is_median (tree : PTree)
    (taxonomy : List (String × List String)) (picks : String → Nat → Nat)
    (fuel : Nat) (phyla : List String)
    {r : List (String × RankTable) × (Nat → List ℚ)}
    (h : medianRdOverPhylaList tree taxonomy picks fuel phyla = .ok r)
    (i : Nat) :
    r.2 i = phyla.flatMap
      (fun p => obsFor i (okD (perPhylum (assignIds tree) taxonomy picks fuel p))) ∧
    (r.2 i ≠ [] ↔ ∃ p ∈ phyla, ∃ d : ℚ,
      (some i, d) ∈ (okD (perPhylum (assignIds tree) taxonomy picks fuel p)).nodeObs) ∧
    (r.2 i ≠ [] → consensusRed r.2 i =
      some (medianOfSorted ((r.2 i).insertionSort (· ≤ ·)))) ∧
    (r.2 i = [] → consensusRed r.2 i = none ∧
      ∀ q : ℚ, consensusRed r.2 i ≠ some q) := by
  unfold medianRdOverPhylaList at h
  cases hr : runPhyla (perPhylum (assignIds tree) taxonomy picks fuel) phyla with
  | error e => rw [hr] at h; cases h
  | ok rs =>
    rw [hr] at h
    simp only at h
    have e₁ := Except.ok.inj h
    obtain ⟨heq, _⟩ := runPhyla_ok_eq hr
    have hacc : r.2 i = phyla.flatMap
        (fun p => obsFor i (okD (perPhylum (assignIds tree) taxonomy picks fuel p))) := by
      rw [← e₁]
      simp only
      rw [nodeAcc_eq, heq]
      rw [List.flatMap_def, List.flatMap_def, List.map_map]
      rfl
    refine ⟨hacc, ?_, ?_, ?_⟩
    · rw [hacc]
      constructor
      · intro hne
        by_contra hnex
        push_neg at hnex
        refine hne (List.bind_eq_nil.mpr (fun p hpm => ?_))
        rw [obsFor, List.filterMap_eq_nil_iff]
        intro ov hov
        by_cases hcond : ov.1 = some i
        · exfalso
          obtain ⟨oi, od⟩ := ov
          simp only at hcond
          subst hcond
          exact hnex p hpm od hov
        · simp [obsFor, hcond]
      · rintro ⟨p, hpm, d, hd⟩ hnil
        have hob : obsFor i (okD (perPhylum (assignIds tree) taxonomy picks fuel p)) = [] := by
          have := List.bind_eq_nil.mp hnil
          exact this _ hpm
        rw [obsFor, List.filterMap_eq_nil_iff] at hob
        have := hob (some i, d) hd
        simp at this
    · intro hne
      unfold consensusRed npMedian
      rw [if_neg (by simpa using hne)]
    · intro hnil
      unfold consensusRed npMedian
      rw [if_pos (by simpa using hnil)]
      exact ⟨rfl, fun q => by simp⟩

/-- C10: the ingroup subtree walked per rooting is the first root child
whose parsed taxon label is absent or does not contain the outgroup
phylum's name; when every root child's label contains that name, no
ingroup subtree is selected and the per-phylum pipeline fails (the
`AttributeError` on the `None` subtree) instead of skipping the rooting
or contributing nothing. -/
theorem claim_C10_ingroup_subtree (tree : PTree)
    (taxonomy : List (String × List String)) (picks : String → Nat → Nat)
    (fuel : Nat) (p : String) :
    (∀ (c : DTree), ingroupPred p c = true ↔
      ((parseLabel c.labelOf).2.1 = none ∨
        ∃ tn, (parseLabel c.labelOf).2.1 = some tn ∧ strContains tn p = false)) ∧
    (∀ (cur c : DTree), findIngroupSubtree cur p = some c ↔
      (ingroupPred p c = true ∧ ∃ pre post, cur.rootChildren = pre ++ c :: post ∧
        ∀ c' ∈ pre, ingroupPred p c' = false)) ∧
    (∀ cur, rootWithOutgroup tree taxonomy p (picks p) fuel = .ok cur →
      (∀ c ∈ (decorate cur).rootChildren, ingroupPred p c = false) →
      perPhylum tree taxonomy picks fuel p = .error .noIngroupSubtree) := by
  refine ⟨?_, ?_, ?_⟩
  · intro c
    unfold ingroupPred
    cases hpl : (parseLabel c.labelOf).2.1 with
    | none => simp
    | some tn =>
      simp only
      constructor
      · intro hb
        exact Or.inr ⟨tn, rfl, by simpa using hb⟩
      · rintro (hh | ⟨tn', htn', hc⟩)
        · cases hh
        · have : tn' = tn := (Option.some_inj.mp htn').symm
          subst this
          simpa using hc
  · intro cur c
    unfold findIngroupSubtree
    rw [List.find?_eq_some]
    constructor
    · rintro ⟨hpred, pre, post, hsplit, hall⟩
      exact ⟨hpred, pre, post, hsplit, fun c' hc' => by
        simpa using hall c' hc'⟩
    · rintro ⟨hpred, pre, post, hsplit, hall⟩
      exact ⟨hpred, pre, post, hsplit, fun c' hc' => by
        simpa using hall c' hc'⟩
  · intro cur hok hall
    unfold perPhylum
    rw [hok]
    simp only
    have hnone : findIngroupSubtree (decorate cur) p = none := by
      unfold findIngroupSubtree
      rw [List.find?_eq_none]
      intro c hc
      simp [hall c hc]
    rw [hnone]

theorem classifyDelta_ne_insufficientMsg (d : ℚ) :
    classifyDelta d ≠ insufficientMsg := by
  unfold classifyDelta insufficientMsg
  split_ifs <;> decide

/-- C8 (amended): a rank is excluded from the median computation and from
the percentile computation — its clades reported with the insufficient-data
messages instead of numeric values — exactly when it has zero trusted
taxa (the guards test `len(v) == 0`, not `< 2`); every rank with at least
one trusted taxon gets a numeric median and numeric percentiles and its
clades are classified numerically, rank by rank. -/
theorem claim_C8_rank_exclusion_zero_trusted
    (relDists : List (Nat × List (String × ℚ))) (inf : List String)
    (hnd : (relDists.map (fun rd => rd.1)).Nodup) :
    ∀ (j : Nat) (rd : Nat × List (String × ℚ)), relDists[j]? = some rd →
    ∀ td ∈ rd.2,
      ((rd.2.filter (fun td => decide (td.1 ∈ inf)) = []) →
        (medianRelDistOf relDists inf).lookup rd.1 = none ∧
        (outlierRow (medianRelDistOf relDists inf) rd.1 td).classification =
          insufficientMsg ∧
        (distributionPercentiles relDists inf).lookup j = none ∧
        (distRow (distributionPercentiles relDists inf) j td).percentileOutlier =
          insufficientPercentilesMsg) ∧
      ((rd.2.filter (fun td => decide (td.1 ∈ inf)) ≠ []) →
        (∃ m, (medianRelDistOf relDists inf).lookup rd.1 = some m ∧
          (outlierRow (medianRelDistOf relDists inf) rd.1 td).classification =
            classifyDelta (td.2 - m) ∧
          (outlierRow (medianRelDistOf relDists inf) rd.1 td).classification ≠
            insufficientMsg) ∧
        (∃ p, (distributionPercentiles relDists inf).lookup j = some p ∧
          (distRow (distributionPercentiles relDists inf) j td).percentileOutlier =
            (if td.2 ≥ p.getD 0 0 ∧ td.2 ≤ p.getD 2 0 then "False"
             else "True") ∧
          (distRow (distributionPercentiles relDists inf) j td).percentileOutlier ≠
            insufficientPercentilesMsg)) := by
  intro j rd hj td _
  have hrd : rd ∈ relDists := List.getElem?_mem hj
  have hlook := lookup_medianRelDistOf inf hnd rd hrd
  have hplook : (distributionPercentiles relDists inf).lookup j =
      npPercentile ((rd.2.filter (fun td => decide (td.1 ∈ inf))).map
        (fun td => td.2)) [10, 50, 90] := by
    have := lookup_distPercentilesFrom inf relDists 0 j rd hj
    rw [Nat.zero_add] at this
    exact this
  constructor
  · intro hfil
    have hnone : (medianRelDistOf relDists inf).lookup rd.1 = none := by
      rw [hlook, hfil]
      rfl
    have hpnone : (distributionPercentiles relDists inf).lookup j = none := by
      rw [hplook, hfil]
      rfl
    exact ⟨hnone, by simp [outlierRow, hnone], hpnone,
      by simp [distRow, hpnone]⟩
  · intro hfil
    have hne : ((rd.2.filter (fun td => decide (td.1 ∈ inf))).map
        (fun td => td.2)).isEmpty = false := by
      rw [List.isEmpty_eq_false]
      simp only [ne_eq, List.map_eq_nil_iff]
      exact hfil
    have hsome : (medianRelDistOf relDists inf).lookup rd.1 =
        some (medianOfSorted
          (((rd.2.filter (fun td => decide (td.1 ∈ inf))).map
            (fun td => td.2)).insertionSort (· ≤ ·))) := by
      rw [hlook]
      unfold npMedian
      rw [hne]
      rfl
    have hpsome : (distributionPercentiles relDists inf).lookup j =
        some ([(10 : ℚ), 50, 90].map (percentileOfSorted
          (((rd.2.filter (fun td => decide (td.1 ∈ inf))).map
            (fun td => td.2)).insertionSort (· ≤ ·)))) := by
      rw [hplook]
      unfold npPercentile
      rw [hne]
      rfl
    refine ⟨⟨_, hsome, ?_, ?_⟩, ⟨_, hpsome, ?_, ?_⟩⟩
    · simp [outlierRow, hsome]
    · have hcls : (outlierRow (medianRelDistOf relDists inf) rd.1 td).classification =
          classifyDelta (td.2 - medianOfSorted
            (((rd.2.filter (fun td => decide (td.1 ∈ inf))).map
              (fun td => td.2)).insertionSort (· ≤ ·))) := by
        simp [outlierRow, hsome]
      rw [hcls]
      exact classifyDelta_ne_insufficientMsg _
    · simp [distRow, hpsome]
    · have hrow : (distRow (distributionPercentiles relDists inf) j td).percentileOutlier =
          (if td.2 ≥ ([(10 : ℚ), 50, 90].map (percentileOfSorted
              (((rd.2.filter (fun td => decide (td.1 ∈ inf))).map
                (fun td => td.2)).insertionSort (· ≤ ·)))).getD 0 0 ∧
              td.2 ≤ ([(10 : ℚ), 50, 90].map (percentileOfSorted
              (((rd.2.filter (fun td => decide (td.1 ∈ inf))).map
                (fun td => td.2)).insertionSort (· ≤ ·)))).getD 2 0
           then "False" else "True") := by
        simp [distRow, hpsome]
      rw [hrow]
      split_ifs <;> decide

/-- C8 (counterexample to the claim as stated): in `exRel` the rank 1 has
exactly one trusted taxon — fewer than two — yet it is excluded from
neither computation: its median is defined, its `percentiles` entry is
present, and its clade `p__A` receives the numeric classification `"OK"`
and the numeric percentile-outlier flag `"False"`, not the
insufficient-data reports. -/
theorem claim_C8_counterexample :
    (((1 : Nat), [("p__A", (1:ℚ)/2)]) ∈ exRel ∧
      ([(("p__A" : String), (1:ℚ)/2)].filter
        (fun td => decide (td.1 ∈ exInf))).length = 1) ∧
    (medianRelDistOf exRel exInf).lookup 1 = some (1/2) ∧
    (medianOutlierRows exRel exInf).map (fun r => r.classification) =
      ["OK", "OK", "OK"] ∧
    (distributionPercentiles exRel exInf).lookup 0 =
      some [1/2, 1/2, 1/2] ∧
    (distributionRows exRel exInf).map (fun r => r.percentileOutlier) =
      ["False", "True", "True"] := by
  decide

/-! ### Witnesses: the claim theorems evaluated at concrete inputs -/
theorem claim_C1_witness :
    (outlierRow [(1, (1:ℚ)/2)] 1 ("c__T", (1:ℚ)/4)).classification =
      classifyDelta ((1:ℚ)/4 - 1/2) ∧
    (classifyDelta (-(3:ℚ)/10) = "very overclassified" ↔
      -(3:ℚ)/10 < -2/10) :=
  ⟨(claim_C1_classification_bands 0).1 [(1, (1:ℚ)/2)] 1 ("c__T", (1:ℚ)/4)
      ((1:ℚ)/2) (by decide),
   (claim_C1_classification_bands (-(3:ℚ)/10)).2.1⟩

theorem claim_C2_witness :
    ((rootPathSums (rescaleTree (decorate exTree))).headD (0, 0)).1 =
      ((rootPathSums (rescaleTree (decorate exTree))).headD (0, 0)).2 :=
  claim_C2_rescaled_tree_path_sums (decorate exTree) rfl _ (by decide)

theorem claim_C3_witness :
    medianRdOverPhyla exTree exTaxonomy ["p__X"] exPicks 6 =
      .error .insufficientPhyla ∧
    ((∃ e, medianRdOverPhyla exTree exTaxonomy ["p__X", "p__Y"] exPicks 6 =
        .error (.phylumFailed e)) ∨
     (∃ r, medianRdOverPhyla exTree exTaxonomy ["p__X", "p__Y"] exPicks 6 =
        .ok r)) :=
  ⟨(claim_C3_insufficient_phyla exTree exTaxonomy ["p__X"] exPicks 6).1.mpr
      (by decide),
   (claim_C3_insufficient_phyla exTree exTaxonomy ["p__X", "p__Y"] exPicks 6).2
      (by decide)⟩

theorem claim_C4_witness :
    rootLoop ["i1", "i2"] ["o1", "o2"] exTree.leafCount (fun _ => 0) 6 0
        exTree =
      rootLoop ["i1", "i2"] ["o1", "o2"] exTree.leafCount (fun _ => 0) 1 0
        exTree ∧
    ∃ t' mp, rootLoop ["i1", "i2"] ["o1", "o2"] exTree.leafCount
        (fun _ => 0) 1 0 exTree = .ok (t', mp) :=
  claim_C4_retry_loop_bounded (fun _ => 0) 0 (by decide) (by decide)
    (by decide) (by decide) (by decide) 5

theorem claim_C5_witness :
    rootWithOutgroup exTree exTaxonomy "p__Z" (fun _ => 0) 6 =
      .error .emptyOutgroup :=
  (claim_C5_empty_outgroup exTree exTaxonomy "p__Z" (fun _ => 0) 6).1.mpr
    (by decide)

theorem claim_C6_witness :
    consensusRed
        (okAgg (medianRdOverPhylaList exTree exTaxonomy exPicks 6
          ["p__X", "p__Y"])).2 2 =
      consensusRed
        (okAgg (medianRdOverPhylaList exTree exTaxonomy exPicks 6
          ["p__Y", "p__X"])).2 2 ∧
    taxonConsensus
        (okAgg (medianRdOverPhylaList exTree exTaxonomy exPicks 6
          ["p__X", "p__Y"])).1 (1, "p__Y") =
      taxonConsensus
        (okAgg (medianRdOverPhylaList exTree exTaxonomy exPicks 6
          ["p__Y", "p__X"])).1 (1, "p__Y") :=
  ⟨(claim_C6_order_invariance exTree exTaxonomy exPicks 6 (by decide)
      (show medianRdOverPhylaList exTree exTaxonomy exPicks 6
          ["p__X", "p__Y"] = .ok (okAgg (medianRdOverPhylaList exTree
            exTaxonomy exPicks 6 ["p__X", "p__Y"])) from rfl)
      (show medianRdOverPhylaList exTree exTaxonomy exPicks 6
          ["p__Y", "p__X"] = .ok (okAgg (medianRdOverPhylaList exTree
            exTaxonomy exPicks 6 ["p__Y", "p__X"])) from rfl)).1 2,
   (claim_C6_order_invariance exTree exTaxonomy exPicks 6 (by decide)
      (show medianRdOverPhylaList exTree exTaxonomy exPicks 6
          ["p__X", "p__Y"] = .ok (okAgg (medianRdOverPhylaList exTree
            exTaxonomy exPicks 6 ["p__X", "p__Y"])) from rfl)
      (show medianRdOverPhylaList exTree exTaxonomy exPicks 6
          ["p__Y", "p__X"] = .ok (okAgg (medianRdOverPhylaList exTree
            exTaxonomy exPicks 6 ["p__Y", "p__X"])) from rfl)).2 (1, "p__Y")⟩

theorem claim_C7_witness :
    (okAgg (medianRdOverPhylaList exTree exTaxonomy exPicks 6
        ["p__X", "p__Y"])).2 2 =
      ["p__X", "p__Y"].flatMap
        (fun p => obsFor 2 (okD (perPhylum (assignIds exTree) exTaxonomy
          exPicks 6 p))) ∧
    consensusRed
        (okAgg (medianRdOverPhylaList exTree exTaxonomy exPicks 6
          ["p__X", "p__Y"])).2 0 = none ∧
    consensusRed
        (okAgg (medianRdOverPhylaList exTree exTaxonomy exPicks 6
          ["p__X", "p__Y"])).2 0 ≠ some 0 :=
  ⟨(claim_C7_consensus_is_median exTree exTaxonomy exPicks 6
      ["p__X", "p__Y"] rfl 2).1,
   ((claim_C7_consensus_is_median exTree exTaxonomy exPicks 6
      ["p__X", "p__Y"] rfl 0).2.2.2 (by decide)).1,
   ((claim_C7_consensus_is_median exTree exTaxonomy exPicks 6
      ["p__X", "p__Y"] rfl 0).2.2.2 (by decide)).2 0⟩

theorem claim_C8_witness :
    (∃ m, (medianRelDistOf exRel exInf).lookup 2 = some m ∧
      (outlierRow (medianRelDistOf exRel exInf) 2
        ("c__B", (1:ℚ)/2)).classification = classifyDelta ((1:ℚ)/2 - m) ∧
      (outlierRow (medianRelDistOf exRel exInf) 2
        ("c__B", (1:ℚ)/2)).classification ≠ insufficientMsg) ∧
    (∃ p, (distributionPercentiles exRel exInf).lookup 1 = some p ∧
      (distRow (distributionPercentiles exRel exInf) 1
        ("c__B", (1:ℚ)/2)).percentileOutlier =
        (if (1:ℚ)/2 ≥ p.getD 0 0 ∧ (1:ℚ)/2 ≤ p.getD 2 0 then "False"
         else "True") ∧
      (distRow (distributionPercentiles exRel exInf) 1
        ("c__B", (1:ℚ)/2)).percentileOutlier ≠ insufficientPercentilesMsg) :=
  (claim_C8_rank_exclusion_zero_trusted exRel exInf (by decide) 1
    (2, [("c__B", (1:ℚ)/2), ("c__C", (3:ℚ)/5)]) (by decide)
    ("c__B", (1:ℚ)/2) (by decide)).2 (by decide)

theorem claim_C9_witness :
    (okStore (rootWithOutgroupStore [exTree] 0 exTaxonomy "p__X"
        (fun _ => 0) 6)).2 = ([exTree] : List PTree).length ∧
    (okStore (rootWithOutgroupStore [exTree] 0 exTaxonomy "p__X"
        (fun _ => 0) 6)).1[0]? = ([exTree] : List PTree)[0]? :=
  ⟨(claim_C9_operates_on_deep_copy
      (show rootWithOutgroupStore [exTree] 0 exTaxonomy "p__X" (fun _ => 0) 6 =
        .ok (okStore (rootWithOutgroupStore [exTree] 0 exTaxonomy "p__X"
          (fun _ => 0) 6)) from rfl)).1,
   (claim_C9_operates_on_deep_copy
      (show rootWithOutgroupStore [exTree] 0 exTaxonomy "p__X" (fun _ => 0) 6 =
        .ok (okStore (rootWithOutgroupStore [exTree] 0 exTaxonomy "p__X"
          (fun _ => 0) 6)) from rfl)).2.1 0 (by decide)⟩

theorem claim_C10_witness :
    perPhylum exTreeC10 exTaxonomy exPicks 6 "p__X" =
      .error .noIngroupSubtree :=
  (claim_C10_ingroup_subtree exTreeC10 exTaxonomy exPicks 6 "p__X").2.2
    (okRootT (rootWithOutgroup exTreeC10 exTaxonomy "p__X" (exPicks "p__X") 6))
    rfl (by decide)

end AutoRank
